import Mathlib

/-!
Verification of the Ordered Attributed Tree component: an in-memory tree of
XML-like element nodes (tag, ordered attribute list, optional text, ordered
children) and comment pseudo-nodes, with construction, mutation, traversal,
path lookup, serialization and parsing.

The notebook source drives the component through the standard library
(`xml.etree.ElementTree`, `xml.dom.minidom`); the operations themselves are
not part of the repository sources, so each operation below is modelled from
the specification text and checked against the behaviour the notebook records
(its printed outputs).  Machine-level details (encodings, buffers) do not
arise: everything is a pure function over the tree and over character lists.
-/

/-- Modelled from the spec: a node is either an element (tag, ordered
attribute mapping, optional direct text, ordered children) or a comment
pseudo-node carrying only its comment string. -/
inductive Node where
  | element (tag : String) (attributes : List (String × String))
      (text : Option String) (children : List Node) : Node
  | comment (content : String) : Node

/-- Modelled from the spec's error taxonomy (§7). -/
inductive XmlError where
  | malformedDocument : XmlError
  | invalidParent : XmlError
  | invalidTarget : XmlError
  | indexOutOfRange : XmlError
deriving DecidableEq

abbrev Chars := List Char

/-- Immediate children of a node; empty for comment nodes. -/
def childrenOf : Node → List Node
  | Node.element _ _ _ cs => cs
  | Node.comment _ => []

/-- Attribute list of a node; empty for comment nodes. -/
def attrsOf : Node → List (String × String)
  | Node.element _ a _ _ => a
  | Node.comment _ => []

/-- Direct text content of a node. -/
def textOf : Node → Option String
  | Node.element _ _ x _ => x
  | Node.comment _ => none

/-- Whether the node is an element (as opposed to a comment pseudo-node). -/
def isElem : Node → Bool
  | Node.element _ _ _ _ => true
  | Node.comment _ => false

/-- `tagIs t n` holds when `n` is an element node whose tag is `t`;
comment nodes carry no tag and never match. -/
def tagIs (t : String) : Node → Bool
  | Node.element t2 _ _ _ => t2 = t
  | Node.comment _ => false

/-- Insert an element at position `i`, shifting later elements right.
Used only under the guard `i ≤ length`. -/
def insertAt (i : Nat) (a : α) : List α → List α :=
  fun l =>
    match i, l with
    | 0, l => a :: l
    | _ + 1, [] => [a]
    | j + 1, b :: bs => b :: insertAt j a bs

/-- Remove the element at position `i`, shifting later elements left. -/
def eraseAt (i : Nat) : List α → List α :=
  fun l =>
    match i, l with
    | _, [] => []
    | 0, _ :: bs => bs
    | j + 1, b :: bs => b :: eraseAt j bs

/-- Modelled from the spec: `createElement(tag, attributes)` returns a fresh
element node with no children and no text. -/
def createElement (tag : String) (attributes : List (String × String)) : Node :=
  Node.element tag attributes none []

/-- Modelled from the spec: `createComment(text)` returns a comment
pseudo-node. -/
def createComment (s : String) : Node :=
  Node.comment s

/-- Modelled from the spec: `createSubElement(parent, tag, attributes)`
creates an element node and appends it to the parent's children, returning
the new node together with the updated parent; fails with
`InvalidParentError` when the parent is a comment node. -/
def createSubElement (parent : Node) (tag : String)
    (attributes : List (String × String)) : Except XmlError (Node × Node) :=
  match parent with
  | Node.comment _ => .error XmlError.invalidParent
  | Node.element t a x cs =>
      .ok (createElement tag attributes,
           Node.element t a x (cs ++ [createElement tag attributes]))

/-- Insert or overwrite key `k` in an ordered attribute list, keeping the
position of an existing key and appending a new one. -/
def updateAttr (l : List (String × String)) (k v : String) :
    List (String × String) :=
  match l with
  | [] => [(k, v)]
  | (k2, v2) :: rest =>
      if k2 = k then (k, v) :: rest else (k2, v2) :: updateAttr rest k v

/-- Modelled from the spec: `setAttribute(node, key, value)` inserts or
overwrites the key; fails with `InvalidTargetError` on a comment node. -/
def setAttribute (n : Node) (k v : String) : Except XmlError Node :=
  match n with
  | Node.comment _ => .error XmlError.invalidTarget
  | Node.element t a x cs => .ok (Node.element t (updateAttr a k v) x cs)

/-- Modelled from the spec: `setText(node, text)` sets the direct text
content; fails with `InvalidTargetError` on a comment node. -/
def setText (n : Node) (s : String) : Except XmlError Node :=
  match n with
  | Node.comment _ => .error XmlError.invalidTarget
  | Node.element t a _ cs => .ok (Node.element t a (some s) cs)

/-- Append a child at the end of the parent's child sequence; fails with
`InvalidParentError` on a comment node. -/
def appendChild (p : Node) (c : Node) : Except XmlError Node :=
  match p with
  | Node.comment _ => .error XmlError.invalidParent
  | Node.element t a x cs => .ok (Node.element t a x (cs ++ [c]))

/-- Modelled from the spec: `insertChild(parent, index, child)` inserts the
child at the index, shifting subsequent children right; fails with
`IndexOutOfRangeError` when `index > len(children)` and with
`InvalidParentError` on a comment node.  (The spec's `CycleError` concerns
object identity and aliasing, which a pure value semantics cannot exhibit;
in this embedding every child is a fresh value, so no cycle can arise.) -/
def insertChild (p : Node) (i : Nat) (c : Node) : Except XmlError Node :=
  match p with
  | Node.comment _ => .error XmlError.invalidParent
  | Node.element t a x cs =>
      if i > cs.length then .error XmlError.indexOutOfRange
      else .ok (Node.element t a x (insertAt i c cs))

/-- Modelled from the spec: `removeChildAt(parent, index)` removes and
returns the child at the index, shifting subsequent children left; fails
with `IndexOutOfRangeError` on an out-of-range index (a comment node has no
children, so every index is out of range for it). -/
def removeChildAt (p : Node) (i : Nat) : Except XmlError (Node × Node) :=
  match p with
  | Node.comment _ => .error XmlError.indexOutOfRange
  | Node.element t a x cs =>
      if h : i < cs.length then
        .ok (cs.get ⟨i, h⟩, Node.element t a x (eraseAt i cs))
      else .error XmlError.indexOutOfRange

/-- The in-place view of `insertChild`: the state of the parent after the
call paired with the error, if any.  The index and parent-kind checks run
before any change to the child sequence, so a failing call leaves the
parent state untouched. -/
def insertChildS (p : Node) (i : Nat) (c : Node) : Node × Option XmlError :=
  match p with
  | Node.comment s => (Node.comment s, some XmlError.invalidParent)
  | Node.element t a x cs =>
      if i > cs.length then (Node.element t a x cs, some XmlError.indexOutOfRange)
      else (Node.element t a x (insertAt i c cs), none)

/-- The in-place view of `removeChildAt`: parent state after the call
paired with the error, if any. -/
def removeChildAtS (p : Node) (i : Nat) : Node × Option XmlError :=
  match p with
  | Node.comment s => (Node.comment s, some XmlError.indexOutOfRange)
  | Node.element t a x cs =>
      if i < cs.length then (Node.element t a x (eraseAt i cs), none)
      else (Node.element t a x cs, some XmlError.indexOutOfRange)

mutual
/-- Modelled from the spec: `walk(node)` is the depth-first pre-order
traversal of the node and every descendant, the node itself first. -/
def walk : Node → List Node
  | Node.comment s => [Node.comment s]
  | Node.element t a x cs => Node.element t a x cs :: walkList cs
def walkList : List Node → List Node
  | [] => []
  | c :: cs => walk c ++ walkList cs
end

/-- A name test in the restricted path-query language: a literal tag name
or the wildcard `*`. -/
inductive NameTest where
  | anyName : NameTest
  | exactTag (t : String) : NameTest

/-- An axis in the restricted path-query language: plain child step or the
descendant-or-self `//` step. -/
inductive PathAxis where
  | childAxis : PathAxis
  | descOrSelf : PathAxis

/-- One step of a parsed path query. -/
structure PathStep where
  axis : PathAxis
  test : NameTest

/-- Whether a node passes a name test; comment nodes carry no tag and never
pass. -/
def testMatches (nt : NameTest) : Node → Bool
  | Node.element t _ _ _ =>
      match nt with
      | NameTest.anyName => true
      | NameTest.exactTag t2 => t = t2
  | Node.comment _ => false

mutual
/-- Nodes of the descendant-or-self axis passing a name test, collected in
document order by direct recursion over the subtree. -/
def collectDescSelf (nt : NameTest) : Node → List Node
  | Node.comment s =>
      if testMatches nt (Node.comment s) then [Node.comment s] else []
  | Node.element t a x cs =>
      if testMatches nt (Node.element t a x cs) then
        Node.element t a x cs :: collectDescSelfList nt cs
      else collectDescSelfList nt cs
def collectDescSelfList (nt : NameTest) : List Node → List Node
  | [] => []
  | c :: cs => collectDescSelf nt c ++ collectDescSelfList nt cs
end

/-- Concatenation of `f` over a node list, in order. -/
def concatMapNodes (f : Node → List Node) : List Node → List Node
  | [] => []
  | n :: ns => f n ++ concatMapNodes f ns

/-- Evaluate one path step against a list of context nodes, in document
order. -/
def stepEval (st : PathStep) (ns : List Node) : List Node :=
  match st.axis with
  | PathAxis.childAxis =>
      (concatMapNodes childrenOf ns).filter (testMatches st.test)
  | PathAxis.descOrSelf =>
      concatMapNodes (collectDescSelf st.test) ns

/-- Evaluate a parsed path against a root node. -/
def evalPath (steps : List PathStep) (root : Node) : List Node :=
  steps.foldl (fun ns st => stepEval st ns) [root]

/-- Whitespace characters normalized away between elements. -/
def isWsChar (c : Char) : Bool :=
  c = ' ' || c = '\t' || c = '\n' || c = '\r'

/-- Characters allowed in tag and attribute names. -/
def isNameChar (c : Char) : Bool :=
  c.isAlphanum || c = '-' || c = '_'

/-- Longest run of name characters at the front, with the remainder. -/
def takeName : Chars → Chars × Chars
  | [] => ([], [])
  | c :: rest =>
      if isNameChar c then
        let p := takeName rest
        (c :: p.1, p.2)
      else ([], c :: rest)

/-- Parse one step of the restricted path language (`//name`, `/name`,
leading bare `name`, `*` as wildcard name), with fuel. -/
def parsePathSteps : Nat → Chars → Option (List PathStep)
  | _, [] => some []
  | 0, _ => none
  | fuel + 1, s =>
      let p :=
        match s with
        | '/' :: '/' :: r => (PathAxis.descOrSelf, r)
        | '/' :: r => (PathAxis.childAxis, r)
        | r => (PathAxis.childAxis, r)
      match p.2 with
      | [] => none
      | c :: r2 =>
          if c = '*' then
            match parsePathSteps fuel r2 with
            | some steps => some (PathStep.mk p.1 NameTest.anyName :: steps)
            | none => none
          else if isNameChar c then
            match takeName (c :: r2) with
            | (nm, r3) =>
                match parsePathSteps fuel r3 with
                | some steps =>
                    some (PathStep.mk p.1 (NameTest.exactTag (String.mk nm)) :: steps)
                | none => none
          else none

/-- Parse a path-query string of the restricted language. -/
def parsePath (s : String) : Option (List PathStep) :=
  match s.data with
  | [] => none
  | l => parsePathSteps (l.length + 1) l

/-- Modelled from the spec: `findAll(node, path)` returns every match of the
restricted path query in document order, and the empty sequence rather than
an error when nothing matches (or the path is not in the language). -/
def findAll (root : Node) (path : String) : List Node :=
  match parsePath path with
  | some steps => evalPath steps root
  | none => []

/-- Lexicographic order on character lists, by Unicode scalar value. -/
def strLe : Chars → Chars → Bool
  | [], _ => true
  | _ :: _, [] => false
  | a :: as, b :: bs => if a = b then strLe as bs else decide (a.toNat < b.toNat)

/-- Lexicographic order on attribute keys. -/
def keyLe (a b : String) : Bool := strLe a.data b.data

/-- Insert an attribute into a key-sorted attribute list. -/
def insertSorted (p : String × String) :
    List (String × String) → List (String × String)
  | [] => [p]
  | q :: rest => if keyLe p.1 q.1 then p :: q :: rest else q :: insertSorted p rest

/-- Sort an attribute list by key, lexicographically (the normalization the
parse path applies, after the canonical-form rewrite of the input). -/
def sortAttrs : List (String × String) → List (String × String)
  | [] => []
  | p :: rest => insertSorted p (sortAttrs rest)

/-- Whether an attribute list is in lexicographically sorted key order. -/
def attrsSortedB : List (String × String) → Bool
  | [] => true
  | [_] => true
  | p :: q :: rest => keyLe p.1 q.1 && attrsSortedB (q :: rest)

/-- Keys of an attribute list, in order. -/
def keysOf (l : List (String × String)) : List String := l.map Prod.fst

/-- Whether the keys of an attribute list are pairwise distinct. -/
def keysNodup : List (String × String) → Bool
  | [] => true
  | p :: rest => !((keysOf rest).contains p.1) && keysNodup rest

/-- Attribute text of an element, one leading space per attribute, in
insertion order, values double-quoted. -/
def renderAttrs : List (String × String) → Chars
  | [] => []
  | (k, v) :: rest =>
      ' ' :: (k.data ++ '=' :: '"' :: (v.data ++ '"' :: renderAttrs rest))

/-- Direct text content as characters (empty when absent). -/
def renderTextOpt : Option String → Chars
  | some s => s.data
  | none => []

mutual
/-- Modelled from the spec: the canonical textual form of the subtree —
tag, attributes in insertion order, text, children in order, comments as
`<!--...-->` markup, and every element closed by an explicit close tag
(never the self-closing shorthand). -/
def renderElem : Node → Chars
  | Node.comment s => '<' :: '!' :: '-' :: '-' :: (s.data ++ ['-', '-', '>'])
  | Node.element t a x cs =>
      '<' :: (t.data ++ renderAttrs a ++
        '>' :: (renderTextOpt x ++ renderList cs ++
          '<' :: '/' :: (t.data ++ ['>'])))
def renderList : List Node → Chars
  | [] => []
  | c :: cs => renderElem c ++ renderList cs
end

/-- The declaration header body after the opening two characters. -/
def declTailChars : Chars :=
  ['x', 'm', 'l', ' ', 'v', 'e', 'r', 's', 'i', 'o', 'n', '=', '"',
   '1', '.', '0', '"', ' ', '?', '>']

/-- The declaration header of every serialized document,
`<?xml version="1.0" ?>`. -/
def declChars : Chars := '<' :: '?' :: declTailChars

/-- Modelled from the spec: `serialize(node)` is the declaration header
followed by the canonical textual form of the subtree. -/
def serialize (n : Node) : String :=
  String.mk (declChars ++ renderElem n)

/-- `ind` tab characters. -/
def tabsChars (n : Nat) : Chars := List.replicate n '\t'

/-- The indented line holding an element's direct text, when the element
also has children (text-only elements stay on one line). -/
def ptext (ind : Nat) : Option String → Chars
  | some s => '\n' :: (tabsChars ind ++ s.data)
  | none => []

mutual
/-- The pretty-printed body of one node: as `renderElem`, but with children
on their own lines, one tab of indentation per nesting level.  Leading
indentation and the newline separating a node from what precedes it are
added by the surrounding list (or by `prettyPrint` at the root). -/
def pcoreElem (ind : Nat) : Node → Chars
  | Node.comment s => '<' :: '!' :: '-' :: '-' :: (s.data ++ ['-', '-', '>'])
  | Node.element t a x cs =>
      if cs.isEmpty then
        '<' :: (t.data ++ renderAttrs a ++
          '>' :: (renderTextOpt x ++ '<' :: '/' :: (t.data ++ ['>'])))
      else
        '<' :: (t.data ++ renderAttrs a ++
          '>' :: (ptext (ind + 1) x ++ plistNodes (ind + 1) cs ++
            '\n' :: (tabsChars ind ++ '<' :: '/' :: (t.data ++ ['>']))))
def plistNodes (ind : Nat) : List Node → Chars
  | [] => []
  | c :: cs =>
      ('\n' :: (tabsChars ind ++ pcoreElem ind c)) ++ plistNodes ind cs
end

/-- Modelled from the spec: `prettyPrint(node)` carries the same content as
`serialize`, reformatted with one-tab indentation per nesting level and
newline-separated elements. -/
def prettyPrint (n : Node) : String :=
  String.mk (declChars ++ '\n' :: (pcoreElem 0 n ++ ['\n']))

/-- Drop leading whitespace characters. -/
def skipWs : Chars → Chars
  | [] => []
  | c :: rest => if isWsChar c then skipWs rest else c :: rest

/-- Strip whitespace from both ends. -/
def stripChars (l : Chars) : Chars :=
  ((l.dropWhile isWsChar).reverse.dropWhile isWsChar).reverse

/-- Characters up to (not including) an unquoted `"` terminator, with the
remainder after the terminator; `none` when the input ends first. -/
def takeUntilQuote : Chars → Option (Chars × Chars)
  | [] => none
  | c :: rest =>
      if c = '"' then some ([], rest)
      else
        match takeUntilQuote rest with
        | some (v, r) => some (c :: v, r)
        | none => none

/-- Character data up to (not including) the next `<`, with the remainder. -/
def takeText : Chars → Chars × Chars
  | [] => ([], [])
  | c :: rest =>
      if c = '<' then ([], c :: rest)
      else
        let p := takeText rest
        (c :: p.1, p.2)

/-- Whether the list starts with the given character. -/
def startsWith1 (a : Char) : Chars → Bool
  | x :: _ => x = a
  | [] => false

/-- Whether the list starts with the two given characters. -/
def startsWith2 (a b : Char) : Chars → Bool
  | x :: y :: _ => x = a && y = b
  | _ => false

/-- Skip a comment body: everything through the closing `-->`. -/
def dropComment : Chars → Option Chars
  | [] => none
  | c :: rest =>
      if c = '-' && startsWith2 '-' '>' rest then some (rest.drop 2)
      else dropComment rest

/-- Skip a declaration body: everything through the closing `?>`. -/
def dropDecl : Chars → Option Chars
  | '?' :: '>' :: rest => some rest
  | _ :: rest => dropDecl rest
  | [] => none

/-- Parse the attribute list of an open tag: repeated
whitespace-then-`name="value"` groups, stopping at the first non-name
character after whitespace. -/
def parseAttrs : Nat → Chars → Except XmlError (List (String × String) × Chars)
  | 0, _ => .error XmlError.malformedDocument
  | fuel + 1, s =>
      match skipWs s with
      | [] => .ok ([], [])
      | c :: r =>
          if isNameChar c then
            match takeName (c :: r) with
            | (nm, r1) =>
                match r1 with
                | '=' :: '"' :: r2 =>
                    match takeUntilQuote r2 with
                    | some (v, r3) =>
                        match parseAttrs fuel r3 with
                        | .ok (attrs, r4) =>
                            .ok ((String.mk nm, String.mk v) :: attrs, r4)
                        | .error e => .error e
                    | none => .error XmlError.malformedDocument
                | _ => .error XmlError.malformedDocument
          else .ok ([], c :: r)

mutual
/-- One element, from its `<` through its explicit close tag, returning the
parsed node and the unconsumed remainder.  Models the parse path of the
notebook (canonicalize with stripped text, then `fromstring`): attribute
order is normalized to lexicographic key order, duplicate attribute keys
are a malformed document, and comment markup is recognized but dropped. -/
def parseElem : Nat → Chars → Except XmlError (Node × Chars)
  | 0, _ => .error XmlError.malformedDocument
  | fuel + 1, s =>
      match s with
      | [] => .error XmlError.malformedDocument
      | c :: r =>
          if c = '<' then
            match takeName r with
            | (nm, r1) =>
                if nm.isEmpty then .error XmlError.malformedDocument
                else
                  match parseAttrs fuel r1 with
                  | .ok (attrs, r2) =>
                      if startsWith1 '>' r2 then
                        if keysNodup attrs then
                          match parseChildren fuel (String.mk nm) (r2.drop 1) with
                          | .ok (tx, cs, r4) =>
                              .ok (Node.element (String.mk nm) (sortAttrs attrs) tx cs, r4)
                          | .error e => .error e
                        else .error XmlError.malformedDocument
                      else .error XmlError.malformedDocument
                  | .error e => .error e
          else .error XmlError.malformedDocument

/-- The content of an element with tag `tag`: character data (normalized by
stripping surrounding whitespace; whitespace-only runs vanish), child
elements, comments (recognized and dropped), through the matching explicit
close tag. -/
def parseChildren : Nat → String → Chars →
    Except XmlError (Option String × List Node × Chars)
  | 0, _, _ => .error XmlError.malformedDocument
  | fuel + 1, tag, s =>
      match s with
      | [] => .error XmlError.malformedDocument
      | c :: r =>
          if c = '<' then
            match r with
            | [] => .error XmlError.malformedDocument
            | d :: r2 =>
                if d = '/' then
                  match takeName r2 with
                  | (nm, r3) =>
                      if startsWith1 '>' r3 then
                        if String.mk nm = tag then .ok (none, [], r3.drop 1)
                        else .error XmlError.malformedDocument
                      else .error XmlError.malformedDocument
                else if d = '!' then
                  if startsWith2 '-' '-' r2 then
                    match dropComment (r2.drop 2) with
                    | some r4 => parseChildren fuel tag r4
                    | none => .error XmlError.malformedDocument
                  else .error XmlError.malformedDocument
                else
                  match parseElem fuel (c :: r) with
                  | .ok (child, r1) =>
                      match parseChildren fuel tag r1 with
                      | .ok (tx, cs, rr) => .ok (tx, child :: cs, rr)
                      | .error e => .error e
                  | .error e => .error e
          else
            match takeText (c :: r) with
            | (t, r1) =>
                match parseChildren fuel tag r1 with
                | .ok (tx, cs, rr) =>
                    if (stripChars t).isEmpty then .ok (tx, cs, rr)
                    else .ok (some (String.mk (stripChars t) ++ (tx.getD "")), cs, rr)
                | .error e => .error e
end

/-- Modelled from the spec: `parse(text)` consumes a textual form — an
optional declaration header then one root element — normalizing
insignificant whitespace, dropping comment markup, and failing with
`MalformedDocumentError` on text that is not well-formed markup. -/
def parseDoc (l : Chars) : Except XmlError Node :=
  match (match skipWs l with
         | '<' :: '?' :: r => dropDecl r
         | s0 => some s0) with
  | none => .error XmlError.malformedDocument
  | some s2 =>
      match parseElem (l.length + 1) (skipWs s2) with
      | .ok (n, rest) =>
          if (skipWs rest).isEmpty then .ok n
          else .error XmlError.malformedDocument
      | .error e => .error e

/-- `parse` on strings. -/
def parse (s : String) : Except XmlError Node := parseDoc s.data

mutual
/-- The tree `parse ∘ serialize` reconstructs from a well-formed tree:
attributes normalized to sorted key order, comment nodes dropped, tags,
text and element structure unchanged. -/
def canon : Node → Node
  | Node.comment s => Node.comment s
  | Node.element t a x cs => Node.element t (sortAttrs a) x (canonList cs)
def canonList : List Node → List Node
  | [] => []
  | Node.comment _ :: cs => canonList cs
  | Node.element t a x cs2 :: cs =>
      canon (Node.element t a x cs2) :: canonList cs
end

/-- Decidable membership in an attribute list. -/
def attrMem (kv : String × String) : List (String × String) → Bool
  | [] => false
  | q :: rest => decide (kv = q) || attrMem kv rest

/-- Equality of attribute lists as sets of key/value pairs (order
independent). -/
def attrSetEq (a b : List (String × String)) : Bool :=
  a.all (fun kv => attrMem kv b) && b.all (fun kv => attrMem kv a)

mutual
/-- `simNC T T2`: T2 has the same tags, the same attribute key/value pairs
compared as a set, the same text and the same nested element structure as
T, except that every comment node of T is absent from T2. -/
def simNC : Node → Node → Bool
  | Node.element t a x cs, Node.element t2 a2 x2 cs2 =>
      decide (t = t2) && attrSetEq a a2 && decide (x = x2) && simList cs cs2
  | _, _ => false
def simList : List Node → List Node → Bool
  | [], [] => true
  | Node.comment _ :: cs, ds => simList cs ds
  | c :: cs, d :: ds => simNC c d && simList cs ds
  | _, _ => false
end

/-- A usable tag or attribute name: nonempty, name characters only. -/
def validName (s : String) : Bool :=
  !s.data.isEmpty && s.data.all isNameChar

/-- An attribute value the quoted form can carry verbatim. -/
def validAttrVal (v : String) : Bool :=
  v.data.all (fun c => !(c = '"'))

/-- Normalized direct text: nonempty, free of markup, no surrounding
whitespace (the spec's parse contract assumes already-normalized text). -/
def validText (s : String) : Bool :=
  !s.data.isEmpty && s.data.all (fun c => !(c = '<')) &&
    decide (stripChars s.data = s.data)

/-- Sequence containment on character lists. -/
def isSeqPrefix : Chars → Chars → Bool
  | [], _ => true
  | _ :: _, [] => false
  | p :: ps, c :: cs => p = c && isSeqPrefix ps cs

/-- Whether `pat` occurs as a contiguous subsequence of `l`. -/
def containsSeq (pat : Chars) : Chars → Bool
  | [] => pat.isEmpty
  | c :: rest => isSeqPrefix pat (c :: rest) || containsSeq pat rest

/-- A comment body the `<!--...-->` markup can carry: no premature
terminator. -/
def validCommentStr (s : String) : Bool :=
  !(containsSeq ['-', '-', '>'] s.data)

/-- Well-formedness of an optional text. -/
def wfTextOpt : Option String → Bool
  | none => true
  | some s => validText s

mutual
/-- A well-formed tree: usable names, unique attribute keys, verbatim
attribute values, normalized text, comment bodies without premature
terminators. -/
def wfNode : Node → Bool
  | Node.comment s => validCommentStr s
  | Node.element t a x cs =>
      validName t &&
        a.all (fun kv => validName kv.1 && validAttrVal kv.2) &&
        keysNodup a && wfTextOpt x && wfList cs
def wfList : List Node → Bool
  | [] => true
  | c :: cs => wfNode c && wfList cs
end

mutual
/-- Fuel sufficient for `parseElem` on the rendering of a node. -/
def fsize : Node → Nat
  | Node.comment _ => 1
  | Node.element _ a _ cs => 1 + max (a.length + 1) (fls cs + 1)
/-- Fuel sufficient for `parseChildren` on the rendering of a child list. -/
def fls : List Node → Nat
  | [] => 3
  | c :: cs => 2 + max (fsize c) (fls cs)
end

theorem insertAt_length_append (l : List α) (a : α) :
    insertAt l.length a l = l ++ [a] := by
  induction l with
  | nil => rfl
  | cons b bs ih => simp [insertAt, List.length_cons, ih]

theorem eraseAt_length_of_lt (l : List α) (i : Nat) (h : i < l.length) :
    (eraseAt i l).length = l.length - 1 := by
  induction l generalizing i with
  | nil => simp at h
  | cons b bs ih =>
    cases i with
    | zero => simp [eraseAt]
    | succ j =>
      have hj : j < bs.length := by simpa using h
      have hb : 1 ≤ bs.length := by omega
      simp [eraseAt, ih j hj]
      omega

theorem insertAt_eraseAt_get (l : List α) (i : Nat) (h : i < l.length) :
    insertAt i (l.get ⟨i, h⟩) (eraseAt i l) = l := by
  induction l generalizing i with
  | nil => simp at h
  | cons b bs ih =>
    cases i with
    | zero => rfl
    | succ j =>
      have hj : j < bs.length := by simpa using h
      simp [eraseAt, insertAt, List.get]
      exact ih j hj

/-- C2: inserting at an index equal to the current child count of an
element node behaves exactly as append, and inserting at any strictly
larger index fails with `IndexOutOfRangeError`. -/
theorem insertChild_at_count_appends (t : String) (a : List (String × String))
    (x : Option String) (cs : List Node) (c : Node) :
    insertChild (Node.element t a x cs) cs.length c =
      appendChild (Node.element t a x cs) c ∧
    ∀ i, cs.length < i →
      insertChild (Node.element t a x cs) i c = .error XmlError.indexOutOfRange := by
  constructor
  · simp [insertChild, appendChild, insertAt_length_append]
  · intro i hi
    simp [insertChild, hi]

/-- Witness for C2 at a concrete element with one child. -/
theorem insertChild_at_count_appends_witness :
    insertChild (Node.element "p" [] none [Node.comment "k"]) 1 (Node.comment "c") =
      appendChild (Node.element "p" [] none [Node.comment "k"]) (Node.comment "c") ∧
    insertChild (Node.element "p" [] none [Node.comment "k"]) 2 (Node.comment "c") =
      .error XmlError.indexOutOfRange :=
  ⟨(insertChild_at_count_appends "p" [] none [Node.comment "k"] (Node.comment "c")).1,
   (insertChild_at_count_appends "p" [] none [Node.comment "k"] (Node.comment "c")).2
     2 (by decide)⟩

/-- C3: `setAttribute` on a comment node always fails with
`InvalidTargetError`, and `createSubElement` with a comment parent always
fails with `InvalidParentError`; neither ever succeeds on a comment node. -/
theorem comment_node_mutations_fail (s k v tag : String)
    (attrs : List (String × String)) :
    setAttribute (Node.comment s) k v = .error XmlError.invalidTarget ∧
    createSubElement (Node.comment s) tag attrs = .error XmlError.invalidParent :=
  ⟨rfl, rfl⟩

/-- C5: removing the child at a valid index and re-inserting the removed
node at the same index restores the original node. -/
theorem remove_insert_restores (N : Node) (i : Nat) (c N2 : Node)
    (h : removeChildAt N i = .ok (c, N2)) :
    insertChild N2 i c = .ok N := by
  cases N with
  | comment s => simp [removeChildAt] at h
  | element t a x cs =>
    rw [removeChildAt] at h
    split at h
    case isTrue hlt =>
      rw [Except.ok.injEq, Prod.mk.injEq] at h
      obtain ⟨hc, hN2⟩ := h
      subst hc
      subst hN2
      rw [insertChild, if_neg, insertAt_eraseAt_get cs i hlt]
      rw [eraseAt_length_of_lt cs i hlt]
      omega
    case isFalse => exact absurd h (by simp)

/-- Witness for C5 at a concrete two-child element. -/
theorem remove_insert_restores_witness :
    insertChild (Node.element "p" [] none [Node.comment "b"]) 0 (Node.comment "a") =
      .ok (Node.element "p" [] none [Node.comment "a", Node.comment "b"]) :=
  remove_insert_restores
    (Node.element "p" [] none [Node.comment "a", Node.comment "b"]) 0
    (Node.comment "a") (Node.element "p" [] none [Node.comment "b"]) (by rfl)

/-- The three usage-purpose children of the notebook scenario. -/
def usagePurposeNode (s : String) : Node :=
  Node.element "usage-purpose" [] (some s) []

/-- The usage-information node of the notebook scenario. -/
def usageInformationNode : Node :=
  Node.element "usage-information"
    [("restricted-usage", "false"), ("standard-compliance", "high")] none
    [usagePurposeNode "manufacturing",
     usagePurposeNode "high precision operations",
     usagePurposeNode "micro mechanics"]

/-- C6: removing the children at indices 2 then 1 of the usage-information
node leaves only the manufacturing child; then inserting a health node at
index 0 and appending a robotics node yields the final child order
health, manufacturing, robotics. -/
theorem usage_information_edit_scenario :
    (removeChildAt usageInformationNode 2 >>= fun p1 =>
      removeChildAt p1.2 1) =
      .ok (usagePurposeNode "high precision operations",
        Node.element "usage-information"
          [("restricted-usage", "false"), ("standard-compliance", "high")] none
          [usagePurposeNode "manufacturing"]) ∧
    (removeChildAt usageInformationNode 2 >>= fun p1 =>
      removeChildAt p1.2 1 >>= fun p2 =>
      insertChild p2.2 0 (usagePurposeNode "health") >>= fun u3 =>
      appendChild u3 (usagePurposeNode "robotics")) =
      .ok (Node.element "usage-information"
        [("restricted-usage", "false"), ("standard-compliance", "high")] none
        [usagePurposeNode "health", usagePurposeNode "manufacturing",
         usagePurposeNode "robotics"]) :=
  ⟨rfl, rfl⟩

/-- `insertChild` agrees with its in-place view `insertChildS`. -/
theorem insertChildS_agrees (p : Node) (i : Nat) (c : Node) :
    insertChild p i c =
      (match insertChildS p i c with
       | (p2, none) => .ok p2
       | (_, some e) => .error e) := by
  cases p with
  | comment s => rfl
  | element t a x cs =>
    rw [insertChild, insertChildS]
    split <;> rfl

/-- `removeChildAt` agrees with its in-place view `removeChildAtS` on the
resulting parent state. -/
theorem removeChildAtS_agrees (p : Node) (i : Nat) :
    removeChildAtS p i =
      (match removeChildAt p i with
       | .ok (_, p2) => (p2, none)
       | .error e => (p, some e)) := by
  cases p with
  | comment s => rfl
  | element t a x cs =>
    rw [removeChildAt, removeChildAtS]
    by_cases h : i < cs.length
    · rw [dif_pos h, if_pos h]
    · rw [dif_neg h, if_neg h]

/-- C9: a failing `insertChild` or `removeChildAt` leaves the parent (and
so its child sequence) exactly as it was: the in-place view returns the
unchanged parent state whenever it reports an error. -/
theorem failed_mutation_leaves_parent (p : Node) (i : Nat) (c : Node) :
    ((insertChildS p i c).2.isSome = true → (insertChildS p i c).1 = p) ∧
    ((removeChildAtS p i).2.isSome = true → (removeChildAtS p i).1 = p) := by
  constructor
  · intro hs
    cases p with
    | comment s => rfl
    | element t a x cs =>
      rw [insertChildS] at hs ⊢
      by_cases h : i > cs.length
      · rw [if_pos h]
      · rw [if_neg h] at hs
        simp at hs
  · intro hs
    cases p with
    | comment s => rfl
    | element t a x cs =>
      rw [removeChildAtS] at hs ⊢
      by_cases h : i < cs.length
      · rw [if_pos h] at hs
        simp at hs
      · rw [if_neg h]

/-- Witness for C9 at a concrete childless element and out-of-range
index. -/
theorem failed_mutation_leaves_parent_witness :
    (insertChildS (Node.element "p" [] none []) 5 (Node.comment "c")).1 =
      Node.element "p" [] none [] ∧
    (removeChildAtS (Node.element "p" [] none []) 5).1 =
      Node.element "p" [] none [] :=
  ⟨(failed_mutation_leaves_parent (Node.element "p" [] none []) 5
      (Node.comment "c")).1 (by rfl),
   (failed_mutation_leaves_parent (Node.element "p" [] none []) 5
      (Node.comment "c")).2 (by rfl)⟩

/-- C7: serialization prepends the declaration header to the rendered
subtree; each attribute is rendered at the front of the remaining attribute
text, so attribute text follows insertion order (not sorted order);
comments render as distinct `<!--...-->` markup; and an empty element
renders as an explicit open tag followed by an explicit close tag, never
the self-closing shorthand. -/
theorem serialize_format (n : Node) (s t k v : String)
    (a rest : List (String × String)) :
    (serialize n).data = declChars ++ renderElem n ∧
    renderElem (Node.comment s) =
      ('<' :: '!' :: '-' :: '-' :: s.data) ++ ['-', '-', '>'] ∧
    renderAttrs ((k, v) :: rest) =
      (' ' :: (k.data ++ '=' :: '"' :: (v.data ++ ['"']))) ++ renderAttrs rest ∧
    renderElem (Node.element t a none []) =
      ('<' :: (t.data ++ renderAttrs a ++ ['>'])) ++
        ('<' :: '/' :: (t.data ++ ['>'])) := by
  refine ⟨rfl, by simp [renderElem], by simp [renderAttrs], ?_⟩
  simp [renderElem, renderTextOpt, renderList]

theorem takeName_exact (l r : Chars) (hl : l.all isNameChar = true)
    (hr : ∀ c rest, r = c :: rest → isNameChar c = false) :
    takeName (l ++ r) = (l, r) := by
  induction l with
  | nil =>
    cases r with
    | nil => rfl
    | cons c cr =>
      have hc := hr c cr rfl
      simp [takeName, hc]
  | cons c cl ih =>
    rw [List.all_cons, Bool.and_eq_true] at hl
    rw [List.cons_append, takeName]
    simp [hl.1, ih hl.2]

mutual
theorem collectDescSelf_eq_filter (nt : NameTest) (n : Node) :
    collectDescSelf nt n = (walk n).filter (testMatches nt) := by
  cases n with
  | comment s => simp [collectDescSelf, walk, testMatches]
  | element t a x cs =>
    have ih := collectDescSelfList_eq_filter nt cs
    by_cases h : testMatches nt (Node.element t a x cs) = true
    · simp [collectDescSelf, walk, h, ih]
    · rw [Bool.not_eq_true] at h
      simp [collectDescSelf, walk, h, ih]
theorem collectDescSelfList_eq_filter (nt : NameTest) (l : List Node) :
    collectDescSelfList nt l = (walkList l).filter (testMatches nt) := by
  cases l with
  | nil => simp [collectDescSelfList, walkList]
  | cons c cs =>
    have ih1 := collectDescSelf_eq_filter nt c
    have ih2 := collectDescSelfList_eq_filter nt cs
    simp [collectDescSelfList, walkList, List.filter_append, ih1, ih2]
end

theorem testMatches_exactTag (t : String) (n : Node) :
    testMatches (NameTest.exactTag t) n = tagIs t n := by
  cases n <;> rfl


theorem parsePath_descendant (t : String) (h : validName t = true) :
    parsePath ("//" ++ t) =
      some [PathStep.mk PathAxis.descOrSelf (NameTest.exactTag t)] := by
  rw [validName, Bool.and_eq_true] at h
  obtain ⟨hne, hall⟩ := h
  have hdata : ("//" ++ t).data = '/' :: '/' :: t.data := by
    rw [String.data_append]
    rfl
  cases ht : t.data with
  | nil =>
    rw [ht] at hne
    simp at hne
  | cons c rest =>
    have hc : isNameChar c = true := by
      rw [ht, List.all_cons, Bool.and_eq_true] at hall
      exact hall.1
    have hstar : ¬ (c = '*') := by
      intro he
      rw [he] at hc
      exact absurd hc (by decide)
    have hname : takeName (c :: rest) = (c :: rest, []) := by
      have h2 := takeName_exact (c :: rest) [] (by rw [← ht]; exact hall)
        (by intro c2 r2 h2; cases h2)
      rw [List.append_nil] at h2
      exact h2
    rw [parsePath, hdata, ht]
    show parsePathSteps (('/' :: '/' :: c :: rest).length + 1) ('/' :: '/' :: c :: rest) = _
    have hlen : ('/' :: '/' :: c :: rest).length + 1 = rest.length + 4 := by
      simp [List.length_cons]
    rw [hlen]
    rw [parsePathSteps]
    simp only [hstar, if_false, hc, if_true, hname]
    have hmk : String.mk (c :: rest) = t := by
      rw [← ht]
    simp [hmk, parsePathSteps]

theorem findAll_desc_eq_walk_filter (root : Node) (t : String)
    (h : validName t = true) :
    findAll root ("//" ++ t) = (walk root).filter (tagIs t) := by
  rw [findAll, parsePath_descendant t h]
  show evalPath [PathStep.mk PathAxis.descOrSelf (NameTest.exactTag t)] root = _
  rw [evalPath, List.foldl_cons, List.foldl_nil, stepEval]
  show concatMapNodes (collectDescSelf (NameTest.exactTag t)) [root] = _
  rw [concatMapNodes, concatMapNodes, List.append_nil]
  rw [collectDescSelf_eq_filter]
  have hfun : testMatches (NameTest.exactTag t) = tagIs t :=
    funext (testMatches_exactTag t)
  rw [hfun]

theorem findAll_desc_eq_walk_filter_witness :
    findAll usageInformationNode ("//" ++ "usage-purpose") =
      (walk usageInformationNode).filter (tagIs "usage-purpose") :=
  findAll_desc_eq_walk_filter usageInformationNode "usage-purpose" (by decide)

theorem ws_not_nameChar (c : Char) (h : isWsChar c = true) : isNameChar c = false := by
  rw [isWsChar] at h
  simp only [Bool.or_eq_true, decide_eq_true_eq] at h
  rcases h with ((h | h) | h) | h <;> rw [h] <;> decide

theorem nameChar_not_ws (c : Char) (h : isNameChar c = true) : isWsChar c = false := by
  cases hw : isWsChar c
  · rfl
  · rw [ws_not_nameChar c hw] at h
    exact Bool.noConfusion h

theorem nameChar_ne (c d : Char) (h : isNameChar c = true)
    (hd : isNameChar d = false) : ¬ (c = d) := by
  intro he
  rw [he, hd] at h
  exact Bool.noConfusion h

theorem skipWs_all (w l : Chars) (hw : w.all isWsChar = true) :
    skipWs (w ++ l) = skipWs l := by
  induction w with
  | nil => rfl
  | cons c w2 ih =>
    rw [List.all_cons, Bool.and_eq_true] at hw
    rw [List.cons_append, skipWs, if_pos hw.1]
    exact ih hw.2

theorem skipWs_head (c : Char) (l : Chars) (hc : isWsChar c = false) :
    skipWs (c :: l) = c :: l := by
  rw [skipWs, if_neg]
  simp [hc]

theorem takeUntilQuote_exact (v r : Chars)
    (hv : v.all (fun c => !(c = '"')) = true) :
    takeUntilQuote (v ++ '"' :: r) = some (v, r) := by
  induction v with
  | nil => rfl
  | cons c v2 ih =>
    rw [List.all_cons, Bool.and_eq_true] at hv
    have hc : ¬ (c = '"') := by simpa using hv.1
    rw [List.cons_append, takeUntilQuote, if_neg hc, ih hv.2]

theorem takeText_exact (ts r : Chars)
    (hts : ts.all (fun c => !(c = '<')) = true) :
    takeText (ts ++ '<' :: r) = (ts, '<' :: r) := by
  induction ts with
  | nil => rfl
  | cons c t2 ih =>
    rw [List.all_cons, Bool.and_eq_true] at hts
    have hc : ¬ (c = '<') := by simpa using hts.1
    rw [List.cons_append, takeText, if_neg hc, ih hts.2]

theorem dropComment_exact (b r : Chars)
    (hb : containsSeq ['-', '-', '>'] b = false) :
    dropComment (b ++ '-' :: '-' :: '>' :: r) = some r := by
  induction b with
  | nil => simp [dropComment, startsWith2]
  | cons c b2 ih =>
    rw [containsSeq, Bool.or_eq_false_iff] at hb
    rw [List.cons_append, dropComment]
    have hcond : (c = '-' && startsWith2 '-' '>' (b2 ++ '-' :: '-' :: '>' :: r))
        = false := by
      cases b2 with
      | nil => simp [startsWith2]
      | cons x b3 =>
        cases b3 with
        | nil => simp [startsWith2]
        | cons y b4 =>
          have hpre := hb.1
          by_cases hc : c = '-'
          · by_cases hx : x = '-'
            · by_cases hy : y = '>'
              · exfalso
                rw [hc, hx, hy] at hpre
                simp [isSeqPrefix] at hpre
              · simp [startsWith2, hy]
            · simp [startsWith2, hx]
          · simp [hc]
    rw [if_neg (by simp [hcond]), ih hb.2]

theorem length_dropWhile_le_chars (p : Char → Bool) (l : Chars) :
    (l.dropWhile p).length ≤ l.length := by
  induction l with
  | nil => simp
  | cons c l2 ih =>
    rw [List.dropWhile_cons]
    by_cases hp : p c = true
    · rw [if_pos hp]
      exact Nat.le_succ_of_le ih
    · rw [if_neg hp]

theorem dropWhileWs_append (w l : Chars) (hw : w.all isWsChar = true) :
    (w ++ l).dropWhile isWsChar = l.dropWhile isWsChar := by
  induction w with
  | nil => rfl
  | cons c w2 ih =>
    rw [List.all_cons, Bool.and_eq_true] at hw
    rw [List.cons_append, List.dropWhile_cons, if_pos hw.1]
    exact ih hw.2

theorem dropWhile_all_ws (w : Chars) (hw : w.all isWsChar = true) :
    w.dropWhile isWsChar = [] := by
  have h := dropWhileWs_append w [] hw
  simpa using h

theorem stripChars_all_ws (w : Chars) (hw : w.all isWsChar = true) :
    stripChars w = [] := by
  rw [stripChars, dropWhile_all_ws w hw]
  rfl

theorem head_not_of_dropWhile_self (p : Char → Bool) (c : Char) (l : Chars)
    (h : (c :: l).dropWhile p = c :: l) : p c = false := by
  cases hp : p c
  · rfl
  · rw [List.dropWhile_cons, if_pos hp] at h
    have hlen := length_dropWhile_le_chars p l
    rw [h] at hlen
    simp at hlen

theorem dropWhile_len_eq_self (p : Char → Bool) (l : Chars)
    (h : (l.dropWhile p).length = l.length) : l.dropWhile p = l := by
  induction l with
  | nil => rfl
  | cons c l2 ih =>
    cases hp : p c
    · rw [List.dropWhile_cons, if_neg (by simp [hp])]
    · rw [List.dropWhile_cons, if_pos hp] at h
      have hle := length_dropWhile_le_chars p l2
      rw [h] at hle
      simp at hle

theorem stripChars_eq_self_dropWhile (ts : Chars) (h : stripChars ts = ts) :
    ts.dropWhile isWsChar = ts ∧ ts.reverse.dropWhile isWsChar = ts.reverse := by
  have hlen1 : (ts.dropWhile isWsChar).length ≤ ts.length :=
    length_dropWhile_le_chars _ _
  have hlen2 : (stripChars ts).length ≤ (ts.dropWhile isWsChar).length := by
    rw [stripChars, List.length_reverse]
    calc ((ts.dropWhile isWsChar).reverse.dropWhile isWsChar).length
        ≤ (ts.dropWhile isWsChar).reverse.length := length_dropWhile_le_chars _ _
      _ = (ts.dropWhile isWsChar).length := List.length_reverse _
  rw [h] at hlen2
  have heq : (ts.dropWhile isWsChar).length = ts.length := Nat.le_antisymm hlen1 hlen2
  have hd : ts.dropWhile isWsChar = ts := dropWhile_len_eq_self _ _ heq
  refine ⟨hd, ?_⟩
  have h2 : (ts.reverse.dropWhile isWsChar).reverse = ts := by
    rw [stripChars, hd] at h
    exact h
  have h3 := congrArg List.reverse h2
  rw [List.reverse_reverse] at h3
  exact h3

theorem stripChars_pad (w1 ts w2 : Chars) (hw1 : w1.all isWsChar = true)
    (hw2 : w2.all isWsChar = true) (hts : stripChars ts = ts) :
    stripChars (w1 ++ ts ++ w2) = ts := by
  obtain ⟨hd, hr⟩ := stripChars_eq_self_dropWhile ts hts
  cases hts0 : ts with
  | nil =>
    apply stripChars_all_ws
    simp only [List.append_nil, List.all_append, Bool.and_eq_true]
    exact ⟨hw1, hw2⟩
  | cons c ts2 =>
    rw [hts0] at hd hr
    have hc : isWsChar c = false := head_not_of_dropWhile_self isWsChar c ts2 hd
    rw [stripChars, List.append_assoc, dropWhileWs_append w1 (c :: ts2 ++ w2) hw1]
    rw [List.cons_append, List.dropWhile_cons, if_neg (by simp [hc])]
    rw [← List.cons_append, List.reverse_append]
    rw [dropWhileWs_append _ _ (by simpa using hw2)]
    rw [hr, List.reverse_reverse]

theorem validName_cons (t : String) (h : validName t = true) :
    ∃ c rest, t.data = c :: rest ∧ isNameChar c = true ∧
      (c :: rest).all isNameChar = true := by
  rw [validName, Bool.and_eq_true] at h
  obtain ⟨hne, hall⟩ := h
  cases ht : t.data with
  | nil =>
    rw [ht] at hne
    simp at hne
  | cons c rest =>
    rw [ht] at hall
    refine ⟨c, rest, rfl, ?_, hall⟩
    rw [List.all_cons, Bool.and_eq_true] at hall
    exact hall.1

theorem parseAttrs_render (a : List (String × String)) (rest : Chars) :
    ∀ fuel, a.length + 1 ≤ fuel →
    (∀ kv ∈ a, validName kv.1 = true ∧ validAttrVal kv.2 = true) →
    parseAttrs fuel (renderAttrs a ++ '>' :: rest) = .ok (a, '>' :: rest) := by
  induction a with
  | nil =>
    intro fuel hf _
    cases fuel with
    | zero => omega
    | succ f =>
      rw [renderAttrs, List.nil_append, parseAttrs,
        skipWs_head '>' rest (by decide)]
      have hgt : isNameChar '>' = false := by decide
      simp [hgt]
  | cons kv a2 ih =>
    intro fuel hf hv
    cases fuel with
    | zero => simp at hf
    | succ f =>
      obtain ⟨hk, hval⟩ := hv kv (List.mem_cons_self kv a2)
      obtain ⟨c, krest, hkd, hc, hkall⟩ := validName_cons kv.1 hk
      have hihyp : ∀ kv2 ∈ a2, validName kv2.1 = true ∧ validAttrVal kv2.2 = true :=
        fun kv2 hm => hv kv2 (List.mem_cons_of_mem kv hm)
      have hfle : a2.length + 1 ≤ f := by
        simp only [List.length_cons] at hf
        omega
      have htn : takeName (c :: (krest ++ '=' :: '"' ::
          (kv.2.data ++ '"' :: (renderAttrs a2 ++ '>' :: rest)))) =
          (c :: krest, '=' :: '"' ::
            (kv.2.data ++ '"' :: (renderAttrs a2 ++ '>' :: rest))) := by
        have h2 := takeName_exact (c :: krest)
          ('=' :: '"' :: (kv.2.data ++ '"' :: (renderAttrs a2 ++ '>' :: rest)))
          hkall (by
            intro c2 r2 h3
            rw [List.cons.injEq] at h3
            rw [← h3.1]
            decide)
        simpa using h2
      have htq : takeUntilQuote (kv.2.data ++ '"' :: (renderAttrs a2 ++ '>' :: rest)) =
          some (kv.2.data, renderAttrs a2 ++ '>' :: rest) :=
        takeUntilQuote_exact kv.2.data (renderAttrs a2 ++ '>' :: rest) hval
      have hrec : parseAttrs f (renderAttrs a2 ++ '>' :: rest) = .ok (a2, '>' :: rest) :=
        ih f hfle hihyp
      rw [renderAttrs, hkd]
      simp only [List.cons_append, List.append_assoc]
      rw [parseAttrs]
      rw [skipWs, if_pos (by decide)]
      rw [skipWs_head c _ (nameChar_not_ws c hc)]
      simp only [hc, if_true, htn, htq, hrec]
      rw [← hkd]

theorem ws_char_ne (x d : Char) (h : isWsChar x = true)
    (hd : isWsChar d = false) : ¬ (x = d) := by
  intro he
  rw [he, hd] at h
  exact Bool.noConfusion h

theorem all_ws_ne_lt (w : Chars) (hw : w.all isWsChar = true) :
    w.all (fun c => !(c = '<')) = true := by
  rw [List.all_eq_true] at hw ⊢
  intro x hx
  have h2 := ws_char_ne x '<' (hw x hx) (by decide)
  simpa using h2

theorem parseChildren_close (f : Nat) (t : String) (r : Chars)
    (h : validName t = true) :
    parseChildren (f + 1) t ('<' :: '/' :: (t.data ++ '>' :: r)) =
      .ok (none, [], r) := by
  rw [validName, Bool.and_eq_true] at h
  have htn : takeName (t.data ++ '>' :: r) = (t.data, '>' :: r) :=
    takeName_exact t.data ('>' :: r) h.2 (by
      intro c2 r2 h2
      rw [List.cons.injEq] at h2
      rw [← h2.1]
      decide)
  rw [parseChildren]
  have hmk : String.mk t.data = t := rfl
  simp [htn, hmk, startsWith1]

theorem parseChildren_ws (f : Nat) (t : String) (w s2 : Chars)
    (hw : w.all isWsChar = true) (hne : w ≠ []) :
    parseChildren (f + 1) t (w ++ '<' :: s2) = parseChildren f t ('<' :: s2) := by
  cases w with
  | nil => exact absurd rfl hne
  | cons c w2 =>
    rw [List.all_cons, Bool.and_eq_true] at hw
    have hcne : ¬ (c = '<') := ws_char_ne c '<' hw.1 (by decide)
    have htt : takeText (c :: (w2 ++ '<' :: s2)) = (c :: w2, '<' :: s2) := by
      have h3 := takeText_exact (c :: w2) s2 (by
        apply all_ws_ne_lt
        rw [List.all_cons, Bool.and_eq_true]
        exact hw)
      simpa using h3
    have hstrip : stripChars (c :: w2) = [] := by
      apply stripChars_all_ws
      rw [List.all_cons, Bool.and_eq_true]
      exact hw
    rw [List.cons_append, parseChildren.eq_def]
    simp only [hcne, if_false, htt, hstrip]
    cases hR : parseChildren f t ('<' :: s2) with
    | ok v =>
      rcases v with ⟨tx, cs, rr⟩
      simp [hR]
    | error e => simp [hR]

theorem parseChildren_text (f : Nat) (t : String) (w1 ts w2 s2 : Chars)
    (hw1 : w1.all isWsChar = true) (hw2 : w2.all isWsChar = true)
    (hts1 : ts ≠ []) (hts2 : ts.all (fun c => !(c = '<')) = true)
    (hts3 : stripChars ts = ts) :
    parseChildren (f + 1) t (w1 ++ ts ++ w2 ++ '<' :: s2) =
      (match parseChildren f t ('<' :: s2) with
       | .ok (tx, cs, rr) => .ok (some (String.mk ts ++ tx.getD ""), cs, rr)
       | .error e => .error e) := by
  have hallne : (w1 ++ ts ++ w2).all (fun c => !(c = '<')) = true := by
    simp only [List.all_append, Bool.and_eq_true]
    exact ⟨⟨all_ws_ne_lt w1 hw1, hts2⟩, all_ws_ne_lt w2 hw2⟩
  have hchunk : ∃ c r, w1 ++ ts ++ w2 = c :: r := by
    cases hE : w1 ++ ts ++ w2 with
    | nil =>
      rw [List.append_eq_nil, List.append_eq_nil] at hE
      exact absurd hE.1.2 hts1
    | cons c r => exact ⟨c, r, rfl⟩
  obtain ⟨c, r, hcr⟩ := hchunk
  have hclt : ¬ (c = '<') := by
    have h2 : (c :: r).all (fun c => !(c = '<')) = true := by
      rw [← hcr]
      exact hallne
    rw [List.all_cons, Bool.and_eq_true] at h2
    simpa using h2.1
  have htt : takeText (c :: (r ++ '<' :: s2)) = (c :: r, '<' :: s2) := by
    have h3 := takeText_exact (c :: r) s2 (by rw [← hcr]; exact hallne)
    simpa using h3
  have hstrip : stripChars (c :: r) = ts := by
    rw [← hcr]
    exact stripChars_pad w1 ts w2 hw1 hw2 hts3
  have hEmp : ts.isEmpty = false := by
    cases ts with
    | nil => exact absurd rfl hts1
    | cons a b => rfl
  have hre : w1 ++ ts ++ w2 ++ '<' :: s2 = c :: (r ++ '<' :: s2) := by
    rw [hcr, List.cons_append]
  rw [hre, parseChildren.eq_def]
  simp only [hclt, if_false, htt, hstrip, hEmp]
  cases hR : parseChildren f t ('<' :: s2) with
  | ok v =>
    rcases v with ⟨tx, cs, rr⟩
    simp [hR]
  | error e => simp [hR]

theorem parseChildren_comment (f : Nat) (t : String) (b r : Chars)
    (hb : containsSeq ['-', '-', '>'] b = false) :
    parseChildren (f + 1) t
        ('<' :: '!' :: '-' :: '-' :: (b ++ '-' :: '-' :: '>' :: r)) =
      parseChildren f t r := by
  rw [parseChildren]
  simp [startsWith2, dropComment_exact b r hb]

theorem parseChildren_child (f : Nat) (t : String) (d : Char) (r2 r1 : Chars)
    (n : Node) (hd : isNameChar d = true)
    (hpe : parseElem f ('<' :: d :: r2) = .ok (n, r1)) :
    parseChildren (f + 1) t ('<' :: d :: r2) =
      (match parseChildren f t r1 with
       | .ok (tx, cs, rr) => .ok (tx, n :: cs, rr)
       | .error e => .error e) := by
  rw [parseChildren]
  have h1 : ¬ (d = '/') := nameChar_ne d '/' hd (by decide)
  have h2 : ¬ (d = '!') := nameChar_ne d '!' hd (by decide)
  simp only [h1, h2, if_false, hpe]
  cases hR : parseChildren f t r1 with
  | ok v =>
    rcases v with ⟨tx, cs, rr⟩
    simp [hR]
  | error e => simp [hR]

theorem stringAppendEmpty (s : String) : s ++ "" = s := by
  have hd : (s ++ "").data = s.data := by
    rw [String.data_append]
    simp
  calc s ++ "" = String.mk ((s ++ "").data) := rfl
    _ = String.mk s.data := by rw [hd]
    _ = s := rfl

theorem renderElem_shape (e : Node) : ∃ tl, renderElem e = '<' :: tl := by
  cases e with
  | comment s => exact ⟨_, rfl⟩
  | element t a x cs => exact ⟨_, rfl⟩

theorem renderList_close_shape (cs : List Node) (y : Chars) :
    ∃ tail, renderList cs ++ '<' :: y = '<' :: tail := by
  cases cs with
  | nil =>
    refine ⟨y, ?_⟩
    rw [renderList, List.nil_append]
  | cons c cs2 =>
    obtain ⟨tl, htl⟩ := renderElem_shape c
    refine ⟨tl ++ (renderList cs2 ++ '<' :: y), ?_⟩
    rw [renderList, htl]
    simp [List.append_assoc]

theorem renderAttrs_head_not_name (a : List (String × String)) (X : Chars) :
    ∀ c rest2, renderAttrs a ++ '>' :: X = c :: rest2 → isNameChar c = false := by
  intro c rest2 h
  cases a with
  | nil =>
    rw [renderAttrs, List.nil_append, List.cons.injEq] at h
    rw [← h.1]
    decide
  | cons kv a2 =>
    rw [renderAttrs, List.cons_append, List.cons.injEq] at h
    rw [← h.1]
    decide

theorem wfNode_element_parts (t : String) (a : List (String × String))
    (x : Option String) (cs : List Node)
    (h : wfNode (Node.element t a x cs) = true) :
    validName t = true ∧
    (∀ kv ∈ a, validName kv.1 = true ∧ validAttrVal kv.2 = true) ∧
    keysNodup a = true ∧ wfTextOpt x = true ∧ wfList cs = true := by
  rw [wfNode] at h
  simp only [Bool.and_eq_true] at h
  obtain ⟨⟨⟨⟨h1, h2⟩, h3⟩, h4⟩, h5⟩ := h
  refine ⟨h1, ?_, h3, h4, h5⟩
  rw [List.all_eq_true] at h2
  intro kv hm
  have h6 := h2 kv hm
  rw [Bool.and_eq_true] at h6
  exact h6

mutual
theorem parseElem_render (e : Node) :
    ∀ fuel rest, wfNode e = true → isElem e = true → fsize e ≤ fuel →
    parseElem fuel (renderElem e ++ rest) = .ok (canon e, rest) := by
  cases e with
  | comment s =>
    intro fuel rest hw hel hf
    exact absurd hel (by simp [isElem])
  | element t a x cs =>
    intro fuel rest hw hel hf
    obtain ⟨hvt, hva, hnd, hwx, hwcs⟩ := wfNode_element_parts t a x cs hw
    rw [fsize] at hf
    cases fuel with
    | zero => omega
    | succ f =>
      have hfa : a.length + 1 ≤ f := by
        have h9 := le_max_left (a.length + 1) (fls cs + 1)
        omega
      have hfc : fls cs + 1 ≤ f := by
        have h9 := le_max_right (a.length + 1) (fls cs + 1)
        omega
      have htdne : t.data ≠ [] := by
        rw [validName, Bool.and_eq_true] at hvt
        intro h2
        rw [h2] at hvt
        exact absurd hvt.1 (by decide)
      have htall : t.data.all isNameChar = true := by
        rw [validName, Bool.and_eq_true] at hvt
        exact hvt.2
      have htn : takeName (t.data ++
          (renderAttrs a ++ '>' :: (renderTextOpt x ++ (renderList cs ++
            '<' :: '/' :: (t.data ++ '>' :: rest))))) =
          (t.data, renderAttrs a ++ '>' :: (renderTextOpt x ++ (renderList cs ++
            '<' :: '/' :: (t.data ++ '>' :: rest)))) :=
        takeName_exact t.data _ htall
          (renderAttrs_head_not_name a _)
      have hemp : t.data.isEmpty = false := by
        cases h2 : t.data with
        | nil => exact absurd h2 htdne
        | cons c r => rfl
      have hpa : parseAttrs f (renderAttrs a ++ '>' :: (renderTextOpt x ++
          (renderList cs ++ '<' :: '/' :: (t.data ++ '>' :: rest)))) =
          .ok (a, '>' :: (renderTextOpt x ++ (renderList cs ++
            '<' :: '/' :: (t.data ++ '>' :: rest)))) :=
        parseAttrs_render a _ f hfa hva
      have hmk : String.mk t.data = t := rfl
      rw [renderElem]
      simp only [List.cons_append, List.append_assoc, List.nil_append]
      rw [parseElem]
      simp only [htn, hemp, Bool.false_eq_true, if_false, hpa, hmk, hnd, if_true,
        startsWith1, List.drop_succ_cons, List.drop_zero,
        decide_eq_true_eq]
      cases x with
      | none =>
        have hpc := parseChildren_render cs f t rest hwcs hvt (by omega)
        simp only [renderTextOpt, List.nil_append, hpc]
        rw [canon]
      | some s =>
        rw [wfTextOpt, validText] at hwx
        simp only [Bool.and_eq_true] at hwx
        obtain ⟨⟨hs1, hs2⟩, hs3⟩ := hwx
        have hsne : s.data ≠ [] := by
          intro h2
          rw [h2] at hs1
          exact absurd hs1 (by decide)
        have hstrip : stripChars s.data = s.data := by
          simpa using hs3
        obtain ⟨tail, htail⟩ :=
          renderList_close_shape cs ('/' :: (t.data ++ '>' :: rest))
        cases f with
        | zero => omega
        | succ g =>
          have htxt := parseChildren_text g t [] s.data [] tail
            (by simp) (by simp) hsne hs2 hstrip
          simp only [List.nil_append, List.append_nil] at htxt
          have hpc := parseChildren_render cs g t rest hwcs hvt (by omega)
          rw [htail] at hpc
          simp only [renderTextOpt, htail, htxt, hpc]
          rw [canon]
          have hse : String.mk s.data ++ (Option.getD none "") = s :=
            stringAppendEmpty s
          rw [hse]
theorem parseChildren_render (cs : List Node) :
    ∀ fuel t rest, wfList cs = true → validName t = true → fls cs ≤ fuel →
    parseChildren fuel t (renderList cs ++ '<' :: '/' :: (t.data ++ '>' :: rest)) =
      .ok (none, canonList cs, rest) := by
  cases cs with
  | nil =>
    intro fuel t rest hw hv hf
    rw [fls] at hf
    cases fuel with
    | zero => omega
    | succ f =>
      rw [renderList, List.nil_append]
      exact parseChildren_close f t rest hv
  | cons c cs2 =>
    intro fuel t rest hw hv hf
    rw [wfList, Bool.and_eq_true] at hw
    rw [fls] at hf
    cases fuel with
    | zero => omega
    | succ f =>
      have hfc1 : fsize c ≤ f := by
        have h9 := le_max_left (fsize c) (fls cs2)
        omega
      have hfc2 : fls cs2 ≤ f := by
        have h9 := le_max_right (fsize c) (fls cs2)
        omega
      cases c with
      | comment s =>
        have hcv : containsSeq ['-', '-', '>'] s.data = false := by
          have h2 := hw.1
          rw [wfNode, validCommentStr] at h2
          simpa using h2
        rw [renderList, renderElem]
        simp only [List.cons_append, List.append_assoc, List.nil_append]
        have hcm := parseChildren_comment f t s.data
          (renderList cs2 ++ '<' :: '/' :: (t.data ++ '>' :: rest)) hcv
        simp only [List.cons_append, List.append_assoc, List.nil_append] at hcm
        rw [hcm]
        have hpc := parseChildren_render cs2 f t rest hw.2 hv hfc2
        rw [hpc, canonList]
      | element t2 a2 x2 cs3 =>
        have hvt2 : validName t2 = true :=
          (wfNode_element_parts t2 a2 x2 cs3 hw.1).1
        obtain ⟨d, dr, htd2, hd, _⟩ := validName_cons t2 hvt2
        have hpe := parseElem_render (Node.element t2 a2 x2 cs3) f
          (renderList cs2 ++ '<' :: '/' :: (t.data ++ '>' :: rest))
          hw.1 (by rfl) hfc1
        have hshape : renderElem (Node.element t2 a2 x2 cs3) ++
            (renderList cs2 ++ '<' :: '/' :: (t.data ++ '>' :: rest)) =
            '<' :: d :: (dr ++ (renderAttrs a2 ++ '>' :: (renderTextOpt x2 ++
              (renderList cs3 ++ '<' :: '/' :: (t2.data ++ '>' ::
                (renderList cs2 ++ '<' :: '/' :: (t.data ++ '>' :: rest))))))) := by
          rw [renderElem, htd2]
          simp [List.cons_append, List.append_assoc]
        rw [renderList, List.append_assoc, hshape]
        rw [hshape] at hpe
        have hcc := parseChildren_child f t d _ _
          (canon (Node.element t2 a2 x2 cs3)) hd hpe
        rw [hcc]
        have hpc := parseChildren_render cs2 f t rest hw.2 hv hfc2
        rw [hpc, canonList, canon]
end

theorem declChars_eq : declChars = "<?xml version=\"1.0\" ?>".data := by decide

theorem dropDecl_declTail (l : Chars) : dropDecl (declTailChars ++ l) = some l := rfl

theorem attrs_length_le (a : List (String × String)) :
    a.length ≤ (renderAttrs a).length := by
  induction a with
  | nil => simp [renderAttrs]
  | cons kv a2 ih =>
    rw [renderAttrs]
    simp only [List.length_cons, List.length_append]
    omega

theorem renderElem_length_ge2 (e : Node) : 2 ≤ (renderElem e).length := by
  cases e with
  | comment s =>
    rw [renderElem]
    simp
  | element t a x cs =>
    rw [renderElem]
    simp only [List.length_cons, List.length_append]
    omega

mutual
theorem fsize_le_renderElem (e : Node) : fsize e ≤ (renderElem e).length := by
  cases e with
  | comment s =>
    rw [fsize, renderElem]
    simp
  | element t a x cs =>
    have ih := fls_le_renderList cs
    have ha := attrs_length_le a
    rw [fsize, renderElem]
    simp only [List.length_cons, List.length_append, List.length_nil]
    have hb : max (a.length + 1) (fls cs + 1) ≤
        max ((renderAttrs a).length + 1) ((renderList cs).length + 4) :=
      max_le_max (by omega) (by omega)
    have hc : max ((renderAttrs a).length + 1) ((renderList cs).length + 4) ≤
        (renderAttrs a).length + (renderList cs).length + 4 := by
      rw [max_le_iff]
      omega
    omega
theorem fls_le_renderList (cs : List Node) :
    fls cs ≤ (renderList cs).length + 3 := by
  cases cs with
  | nil =>
    rw [fls, renderList]
    simp
  | cons c cs2 =>
    have ih1 := fsize_le_renderElem c
    have ih2 := fls_le_renderList cs2
    have h2 := renderElem_length_ge2 c
    rw [fls, renderList]
    simp only [List.length_append]
    have hm : max (fsize c) (fls cs2) ≤ max ((renderElem c).length) ((renderList cs2).length + 3) := by
      exact max_le_max ih1 ih2
    have hb : max ((renderElem c).length) ((renderList cs2).length + 3) ≤
        (renderElem c).length + (renderList cs2).length + 1 := by
      rw [max_le_iff]
      omega
    omega
end

theorem parse_serialize_canon (T : Node) (hw : wfNode T = true)
    (he : isElem T = true) : parse (serialize T) = .ok (canon T) := by
  rw [parse, serialize]
  show parseDoc (declChars ++ renderElem T) = _
  obtain ⟨tl, htl⟩ := renderElem_shape T
  have hsw : skipWs (declChars ++ renderElem T) = declChars ++ renderElem T := by
    rw [declChars]
    simp only [List.cons_append]
    exact skipWs_head '<' _ (by decide)
  have hsw2 : skipWs (renderElem T) = renderElem T := by
    rw [htl]
    exact skipWs_head '<' _ (by decide)
  have hfuel : fsize T ≤ ('<' :: '?' :: (declTailChars ++ renderElem T)).length + 1 := by
    have h1 := fsize_le_renderElem T
    simp only [List.length_cons, List.length_append]
    omega
  have hpe := parseElem_render T
    (('<' :: '?' :: (declTailChars ++ renderElem T)).length + 1) [] hw he hfuel
  rw [List.append_nil] at hpe
  rw [parseDoc, hsw, declChars]
  simp only [List.cons_append]
  rw [dropDecl_declTail]
  simp only [hsw2, hpe]
  rfl

theorem insertSorted_perm (p : String × String) (l : List (String × String)) :
    List.Perm (insertSorted p l) (p :: l) := by
  induction l with
  | nil => exact List.Perm.refl _
  | cons q rest ih =>
    rw [insertSorted]
    by_cases h : keyLe p.1 q.1 = true
    · rw [if_pos h]
    · rw [if_neg h]
      exact List.Perm.trans (List.Perm.cons q ih) (List.Perm.swap p q rest)

theorem sortAttrs_perm (l : List (String × String)) :
    List.Perm (sortAttrs l) l := by
  induction l with
  | nil => exact List.Perm.refl _
  | cons p rest ih =>
    rw [sortAttrs]
    exact List.Perm.trans (insertSorted_perm p (sortAttrs rest))
      (List.Perm.cons p ih)

theorem attrMem_iff (kv : String × String) (l : List (String × String)) :
    attrMem kv l = true ↔ kv ∈ l := by
  induction l with
  | nil => simp [attrMem]
  | cons q rest ih => simp [attrMem, ih]

theorem attrSetEq_of_perm (a b : List (String × String))
    (h : List.Perm a b) : attrSetEq a b = true := by
  rw [attrSetEq, Bool.and_eq_true, List.all_eq_true, List.all_eq_true]
  constructor
  · intro kv hm
    rw [attrMem_iff]
    exact h.mem_iff.mp hm
  · intro kv hm
    rw [attrMem_iff]
    exact h.mem_iff.mpr hm

mutual
theorem simNC_canon (e : Node) (he : isElem e = true) :
    simNC e (canon e) = true := by
  cases e with
  | comment s => exact absurd he (by simp [isElem])
  | element t a x cs =>
    rw [canon, simNC]
    simp only [Bool.and_eq_true, decide_eq_true_eq]
    refine ⟨⟨⟨by simp, ?_⟩, by simp⟩, simList_canonList cs⟩
    exact attrSetEq_of_perm a (sortAttrs a) (sortAttrs_perm a).symm
theorem simList_canonList (cs : List Node) :
    simList cs (canonList cs) = true := by
  cases cs with
  | nil => rfl
  | cons c cs2 =>
    cases c with
    | comment s =>
      rw [canonList]
      have harm : ∀ ds, simList (Node.comment s :: cs2) ds = simList cs2 ds := by
        intro ds
        cases ds with
        | nil => rfl
        | cons d ds2 => rfl
      rw [harm]
      exact simList_canonList cs2
    | element t a x cs3 =>
      rw [canonList]
      show (simNC (Node.element t a x cs3) (canon (Node.element t a x cs3)) &&
        simList cs2 (canonList cs2)) = true
      rw [Bool.and_eq_true]
      exact ⟨simNC_canon (Node.element t a x cs3) (by rfl), simList_canonList cs2⟩
end

/-- C1 as literally stated fails on the code: parsing strips the
whitespace around text content, so a tree whose text carries surrounding
whitespace round-trips to different text.  At the concrete input
`<a> x </a>` the parse succeeds but yields text `x`, not `' x '`. -/
theorem parse_serialize_sim_counterexample :
    ¬ (∃ T2, parse (serialize (Node.element "a" [] (some " x ") [])) = .ok T2 ∧
        simNC (Node.element "a" [] (some " x ") []) T2 = true) := by
  intro hex
  obtain ⟨T2, h1, h2⟩ := hex
  have hv : parse (serialize (Node.element "a" [] (some " x ") [])) =
      .ok (Node.element "a" [] (some "x") []) := by rfl
  rw [hv, Except.ok.injEq] at h1
  rw [← h1] at h2
  have hf : simNC (Node.element "a" [] (some " x ") [])
      (Node.element "a" [] (some "x") []) = false := by rfl
  rw [hf] at h2
  exact Bool.noConfusion h2

/-- C1 (amended): for every well-formed tree — usable tag and attribute
names, unique attribute keys, quotable attribute values, normalized text —
parsing the serialization yields a tree with the same tags, the same
attribute key/value pairs compared as a set, the same text, and the same
nested element structure, with every comment node dropped. -/
theorem parse_serialize_sim (T : Node) (hw : wfNode T = true)
    (he : isElem T = true) :
    ∃ T2, parse (serialize T) = .ok T2 ∧ simNC T T2 = true :=
  ⟨canon T, parse_serialize_canon T hw he, simNC_canon T he⟩

/-- Witness for the amended C1 on a tree with unsorted attributes, a text
child and a comment child. -/
theorem parse_serialize_sim_witness :
    ∃ T2, parse (serialize (Node.element "robot" [("b", "2"), ("a", "1")] none
        [Node.element "serial-number" [] (some "x1") [], Node.comment "note"])) =
        .ok T2 ∧
      simNC (Node.element "robot" [("b", "2"), ("a", "1")] none
        [Node.element "serial-number" [] (some "x1") [], Node.comment "note"])
        T2 = true :=
  parse_serialize_sim
    (Node.element "robot" [("b", "2"), ("a", "1")] none
      [Node.element "serial-number" [] (some "x1") [], Node.comment "note"])
    (by rfl) (by rfl)

theorem strLe_total (a b : Chars) : strLe a b = true ∨ strLe b a = true := by
  induction a generalizing b with
  | nil => exact Or.inl rfl
  | cons x xs ih =>
    cases b with
    | nil => exact Or.inr rfl
    | cons y ys =>
      by_cases hxy : x = y
      · rw [strLe, if_pos hxy, strLe, if_pos hxy.symm]
        exact ih ys
      · rw [strLe, if_neg hxy, strLe, if_neg (Ne.symm hxy)]
        rcases Nat.lt_trichotomy x.toNat y.toNat with h | h | h
        · exact Or.inl (by simpa using h)
        · exfalso
          apply hxy
          have h2 := congrArg Char.ofNat h
          rwa [Char.ofNat_toNat, Char.ofNat_toNat] at h2
        · exact Or.inr (by simpa using h)

theorem keyLe_total (a b : String) : keyLe a b = true ∨ keyLe b a = true :=
  strLe_total a.data b.data

theorem attrsSortedB_insertSorted (p : String × String)
    (l : List (String × String)) (h : attrsSortedB l = true) :
    attrsSortedB (insertSorted p l) = true := by
  induction l with
  | nil => rfl
  | cons q rest ih =>
    rw [insertSorted]
    by_cases hle : keyLe p.1 q.1 = true
    · rw [if_pos hle, attrsSortedB]
      simp [hle, h]
    · rw [if_neg hle]
      have hqp : keyLe q.1 p.1 = true := by
        rcases keyLe_total p.1 q.1 with h1 | h1
        · exact absurd h1 hle
        · exact h1
      cases rest with
      | nil => simp [insertSorted, attrsSortedB, hqp]
      | cons r rest2 =>
        rw [attrsSortedB, Bool.and_eq_true] at h
        obtain ⟨hqr, hrest⟩ := h
        have hins := ih hrest
        rw [insertSorted] at hins ⊢
        by_cases hpr : keyLe p.1 r.1 = true
        · rw [if_pos hpr] at hins ⊢
          rw [attrsSortedB]
          simp [hqp, hins]
        · rw [if_neg hpr] at hins ⊢
          rw [attrsSortedB]
          simp [hqr, hins]

theorem sortAttrs_sorted (l : List (String × String)) :
    attrsSortedB (sortAttrs l) = true := by
  induction l with
  | nil => rfl
  | cons p rest ih =>
    rw [sortAttrs]
    exact attrsSortedB_insertSorted p (sortAttrs rest) ih

theorem walkList_mem (m : Node) (l : List Node) :
    m ∈ walkList l ↔ ∃ c ∈ l, m ∈ walk c := by
  induction l with
  | nil => simp [walkList]
  | cons c cs ih =>
    rw [walkList]
    simp only [List.mem_append, ih, List.mem_cons]
    constructor
    · intro h
      rcases h with h | ⟨c2, hc2, hm⟩
      · exact ⟨c, Or.inl rfl, h⟩
      · exact ⟨c2, Or.inr hc2, hm⟩
    · intro h
      rcases h with ⟨c2, hc2 | hc2, hm⟩
      · rw [hc2] at hm
        exact Or.inl hm
      · exact Or.inr ⟨c2, hc2, hm⟩

theorem parseElem_succ (f : Nat) (s : Chars) :
    parseElem (f + 1) s =
      (match s with
       | [] => .error XmlError.malformedDocument
       | c :: r =>
           if c = '<' then
             match takeName r with
             | (nm, r1) =>
                 if nm.isEmpty then .error XmlError.malformedDocument
                 else
                   match parseAttrs f r1 with
                   | .ok (attrs, r2) =>
                       if startsWith1 '>' r2 then
                         if keysNodup attrs then
                           match parseChildren f (String.mk nm) (r2.drop 1) with
                           | .ok (tx, cs, r4) =>
                               .ok (Node.element (String.mk nm) (sortAttrs attrs) tx cs, r4)
                           | .error e => .error e
                         else .error XmlError.malformedDocument
                       else .error XmlError.malformedDocument
                   | .error e => .error e
           else .error XmlError.malformedDocument) := rfl

theorem parseChildren_succ (f : Nat) (tag : String) (s : Chars) :
    parseChildren (f + 1) tag s =
      (match s with
       | [] => .error XmlError.malformedDocument
       | c :: r =>
           if c = '<' then
             match r with
             | [] => .error XmlError.malformedDocument
             | d :: r2 =>
                 if d = '/' then
                   match takeName r2 with
                   | (nm, r3) =>
                       if startsWith1 '>' r3 then
                         if String.mk nm = tag then .ok (none, [], r3.drop 1)
                         else .error XmlError.malformedDocument
                       else .error XmlError.malformedDocument
                 else if d = '!' then
                   if startsWith2 '-' '-' r2 then
                     match dropComment (r2.drop 2) with
                     | some r4 => parseChildren f tag r4
                     | none => .error XmlError.malformedDocument
                   else .error XmlError.malformedDocument
                 else
                   match parseElem f (c :: r) with
                   | .ok (child, r1) =>
                       match parseChildren f tag r1 with
                       | .ok (tx, cs, rr) => .ok (tx, child :: cs, rr)
                       | .error e => .error e
                   | .error e => .error e
           else
             match takeText (c :: r) with
             | (t, r1) =>
                 match parseChildren f tag r1 with
                 | .ok (tx, cs, rr) =>
                     if (stripChars t).isEmpty then .ok (tx, cs, rr)
                     else .ok (some (String.mk (stripChars t) ++ (tx.getD "")), cs, rr)
                 | .error e => .error e) := rfl

theorem parse_sorted_aux (fuel : Nat) :
    (∀ s n r, parseElem fuel s = .ok (n, r) →
      ∀ m ∈ walk n, attrsSortedB (attrsOf m) = true) ∧
    (∀ t s tx cs r, parseChildren fuel t s = .ok (tx, cs, r) →
      ∀ m ∈ walkList cs, attrsSortedB (attrsOf m) = true) := by
  induction fuel with
  | zero =>
    constructor
    · intro s n r h
      rw [parseElem] at h
      exact absurd h (by simp)
    · intro t s tx cs r h
      rw [parseChildren] at h
      exact absurd h (by simp)
  | succ f ih =>
    obtain ⟨ihE, ihC⟩ := ih
    constructor
    · intro s n r h
      rw [parseElem_succ] at h
      cases s with
      | nil => exact absurd h (by simp)
      | cons c cr =>
        by_cases hc : c = '<'
        case neg =>
          simp [hc] at h
        case pos =>
          rcases htn : takeName cr with ⟨nm, r1⟩
          simp only [hc, if_true, htn] at h
          by_cases hni : nm.isEmpty = true
          case pos => simp [hni] at h
          case neg =>
            simp only [hni, if_false] at h
            cases hpa : parseAttrs f r1 with
            | error e => simp [hpa] at h
            | ok p =>
              rcases p with ⟨attrs, r2⟩
              simp only [hpa] at h
              by_cases hgt : startsWith1 '>' r2 = true
              case neg => simp [hgt] at h
              case pos =>
                simp only [hgt, if_true] at h
                by_cases hnd : keysNodup attrs = true
                case neg => simp [hnd] at h
                case pos =>
                  simp only [hnd, if_true] at h
                  cases hpc : parseChildren f (String.mk nm) (r2.tail) with
                  | error e => simp [List.drop_one, hpc] at h
                  | ok q =>
                    rcases q with ⟨tx, cs, r4⟩
                    simp only [List.drop_one, hpc, Bool.false_eq_true, if_false] at h
                    rw [Except.ok.injEq, Prod.mk.injEq] at h
                    obtain ⟨hn, hr⟩ := h
                    rw [← hn]
                    intro m hm
                    rw [walk] at hm
                    rcases List.mem_cons.mp hm with hm1 | hm2
                    · rw [hm1, attrsOf]
                      exact sortAttrs_sorted attrs
                    · exact ihC (String.mk nm) (r2.tail) tx cs r4 hpc m hm2
    · intro t s tx cs r h
      rw [parseChildren_succ] at h
      cases s with
      | nil => exact absurd h (by simp)
      | cons c cr =>
        by_cases hc : c = '<'
        case neg =>
          rcases htt : takeText (c :: cr) with ⟨t2, r1⟩
          simp only [hc, if_false, htt] at h
          cases hpc : parseChildren f t r1 with
          | error e => simp [hpc] at h
          | ok q =>
            rcases q with ⟨tx2, cs2, rr⟩
            simp only [hpc] at h
            by_cases hemp : (stripChars t2).isEmpty = true
            case pos =>
              rw [if_pos hemp] at h
              rw [Except.ok.injEq, Prod.mk.injEq, Prod.mk.injEq] at h
              obtain ⟨htx, hcs, hr⟩ := h
              rw [← hcs]
              exact fun m hm => ihC t r1 tx2 cs2 rr hpc m hm
            case neg =>
              rw [if_neg hemp] at h
              rw [Except.ok.injEq, Prod.mk.injEq, Prod.mk.injEq] at h
              obtain ⟨htx, hcs, hr⟩ := h
              rw [← hcs]
              exact fun m hm => ihC t r1 tx2 cs2 rr hpc m hm
        case pos =>
          cases cr with
          | nil => simp [hc] at h
          | cons d r2 =>
            by_cases hd1 : d = '/'
            case pos =>
              rcases htn : takeName r2 with ⟨nm, r3⟩
              simp only [hc, if_true, hd1, htn] at h
              by_cases hgt : startsWith1 '>' r3 = true
              case neg => simp [hgt] at h
              case pos =>
                simp only [hgt, if_true] at h
                by_cases hmk : String.mk nm = t
                case neg => simp [hmk] at h
                case pos =>
                  simp only [hmk, if_true] at h
                  rw [Except.ok.injEq, Prod.mk.injEq, Prod.mk.injEq] at h
                  obtain ⟨htx, hcs, hr⟩ := h
                  rw [← hcs]
                  intro m hm
                  rw [walkList] at hm
                  simp at hm
            case neg =>
              by_cases hd2 : d = '!'
              case pos =>
                simp only [hc, if_true, hd1, if_false, hd2] at h
                by_cases hsw : startsWith2 '-' '-' r2 = true
                case neg => simp [hsw] at h
                case pos =>
                  simp only [hsw, if_true] at h
                  cases hdc : dropComment (r2.drop 2) with
                  | none => simp [hdc] at h
                  | some r4 =>
                    simp only [hdc] at h
                    exact ihC t r4 tx cs r h
              case neg =>
                simp only [hc, if_true, hd1, hd2, if_false] at h
                cases hpe : parseElem f ('<' :: d :: r2) with
                | error e => simp [hpe] at h
                | ok q =>
                  rcases q with ⟨child, r1⟩
                  simp only [hpe] at h
                  cases hpc : parseChildren f t r1 with
                  | error e => simp [hpc] at h
                  | ok q2 =>
                    rcases q2 with ⟨tx2, cs2, rr⟩
                    simp only [hpc] at h
                    rw [Except.ok.injEq, Prod.mk.injEq, Prod.mk.injEq] at h
                    obtain ⟨htx, hcs, hr⟩ := h
                    rw [← hcs]
                    intro m hm
                    rw [walkList] at hm
                    rcases List.mem_append.mp hm with hm1 | hm2
                    · exact ihE ('<' :: d :: r2) child r1 hpe m hm1
                    · exact ihC t r1 tx2 cs2 rr hpc m hm2

/-- C10: every tree returned by `parse` — the modelled canonicalize-then-
build pipeline — has every element's attributes in lexicographically
sorted key order, whatever the attribute order of the input text. -/
theorem parse_attrs_sorted (s : String) (T : Node) (h : parse s = .ok T) :
    (walk T).all (fun m => attrsSortedB (attrsOf m)) = true := by
  rw [List.all_eq_true]
  intro m hm
  rw [parse, parseDoc] at h
  split at h
  next => exact absurd h (by simp)
  next s2 hdm =>
    cases hpe : parseElem (s.data.length + 1) (skipWs s2) with
    | error e =>
      rw [hpe] at h
      exact absurd h (by simp)
    | ok q =>
      rcases q with ⟨n, rest⟩
      rw [hpe] at h
      dsimp only at h
      by_cases hres : (skipWs rest).isEmpty = true
      · rw [if_pos hres, Except.ok.injEq] at h
        rw [← h] at hm
        exact (parse_sorted_aux (s.data.length + 1)).1 (skipWs s2) n rest hpe m hm
      · rw [if_neg hres] at h
        exact absurd h (by simp)

/-- Witness for C10: parsing attributes given in the order b, a returns
them sorted as a, b. -/
theorem parse_attrs_sorted_witness :
    (walk (Node.element "a" [("a", "1"), ("b", "2")] none [])).all
      (fun m => attrsSortedB (attrsOf m)) = true :=
  parse_attrs_sorted "<a b=\"2\" a=\"1\"></a>"
    (Node.element "a" [("a", "1"), ("b", "2")] none []) (by rfl)

theorem pcoreElem_shape (ind : Nat) (e : Node) :
    ∃ tl, pcoreElem ind e = '<' :: tl := by
  cases e with
  | comment s => exact ⟨_, rfl⟩
  | element t a x cs =>
    by_cases h : cs.isEmpty = true
    · rw [pcoreElem, if_pos h]
      exact ⟨_, rfl⟩
    · rw [pcoreElem, if_neg h]
      exact ⟨_, rfl⟩

theorem tabsChars_all_ws (n : Nat) : (tabsChars n).all isWsChar = true := by
  rw [tabsChars, List.all_eq_true]
  intro x hx
  rw [List.eq_of_mem_replicate hx]
  decide

mutual
theorem parseElem_prender (e : Node) :
    ∀ ind fuel rest, wfNode e = true → isElem e = true → fsize e ≤ fuel →
    parseElem fuel (pcoreElem ind e ++ rest) = .ok (canon e, rest) := by
  cases e with
  | comment s =>
    intro ind fuel rest hw hel hf
    exact absurd hel (by simp [isElem])
  | element t a x cs =>
    intro ind fuel rest hw hel hf
    cases hcs : cs with
    | nil =>
      have hpc : pcoreElem ind (Node.element t a x []) =
          renderElem (Node.element t a x []) := by
        rw [pcoreElem, renderElem, if_pos (by rfl)]
        simp [renderList]
      rw [hcs] at hw hf
      rw [hpc]
      exact parseElem_render (Node.element t a x []) fuel rest hw (by rfl) hf
    | cons c cs2 =>
      rw [hcs] at hw hf
      obtain ⟨hvt, hva, hnd, hwx, hwcs⟩ :=
        wfNode_element_parts t a x (c :: cs2) hw
      rw [fsize] at hf
      cases fuel with
      | zero => omega
      | succ f =>
        have hfa : a.length + 1 ≤ f := by
          have h9 := le_max_left (a.length + 1) (fls (c :: cs2) + 1)
          omega
        have hfc : fls (c :: cs2) + 1 ≤ f := by
          have h9 := le_max_right (a.length + 1) (fls (c :: cs2) + 1)
          omega
        have htdne : t.data ≠ [] := by
          rw [validName, Bool.and_eq_true] at hvt
          intro h2
          rw [h2] at hvt
          exact absurd hvt.1 (by decide)
        have htall : t.data.all isNameChar = true := by
          rw [validName, Bool.and_eq_true] at hvt
          exact hvt.2
        have hemp : t.data.isEmpty = false := by
          cases h2 : t.data with
          | nil => exact absurd h2 htdne
          | cons c2 r2 => rfl
        have hmk : String.mk t.data = t := rfl
        rw [pcoreElem, if_neg (by simp)]
        simp only [List.cons_append, List.append_assoc, List.nil_append]
        have htn : takeName (t.data ++
            (renderAttrs a ++ '>' :: (ptext (ind + 1) x ++
              (plistNodes (ind + 1) (c :: cs2) ++
                '\n' :: (tabsChars ind ++ '<' :: '/' :: (t.data ++ '>' :: rest)))))) =
            (t.data, renderAttrs a ++ '>' :: (ptext (ind + 1) x ++
              (plistNodes (ind + 1) (c :: cs2) ++
                '\n' :: (tabsChars ind ++ '<' :: '/' :: (t.data ++ '>' :: rest))))) :=
          takeName_exact t.data _ htall (renderAttrs_head_not_name a _)
        have hpa := parseAttrs_render a (ptext (ind + 1) x ++
            (plistNodes (ind + 1) (c :: cs2) ++
              '\n' :: (tabsChars ind ++ '<' :: '/' :: (t.data ++ '>' :: rest))))
          f hfa hva
        rw [parseElem]
        simp only [htn, hemp, Bool.false_eq_true, if_false, hpa, hmk, hnd, if_true,
          startsWith1, List.drop_succ_cons, List.drop_zero, decide_eq_true_eq]
        cases x with
        | none =>
          have hpcl := parseChildren_prender (c :: cs2) f (ind + 1) t
            ('\n' :: tabsChars ind) rest hwcs hvt
            (by rw [List.all_cons, Bool.and_eq_true]
                exact ⟨by decide, tabsChars_all_ws ind⟩)
            (by intro h2; cases h2) (by omega)
          simp only [List.cons_append, List.append_assoc] at hpcl
          simp only [ptext, List.nil_append, hpcl]
          rw [canon]
        | some s =>
          rw [wfTextOpt, validText] at hwx
          simp only [Bool.and_eq_true] at hwx
          obtain ⟨⟨hs1, hs2⟩, hs3⟩ := hwx
          have hsne : s.data ≠ [] := by
            intro h2
            rw [h2] at hs1
            exact absurd hs1 (by decide)
          have hstrip : stripChars s.data = s.data := by
            simpa using hs3
          obtain ⟨tl2, htl2⟩ := pcoreElem_shape (ind + 1) c
          cases f with
          | zero => omega
          | succ g =>
            have htxt := parseChildren_text g t ('\n' :: tabsChars (ind + 1))
              s.data ('\n' :: tabsChars (ind + 1)) (tl2 ++
                (plistNodes (ind + 1) cs2 ++
                  '\n' :: (tabsChars ind ++ '<' :: '/' :: (t.data ++ '>' :: rest))))
              (by rw [List.all_cons, Bool.and_eq_true]
                  exact ⟨by decide, tabsChars_all_ws (ind + 1)⟩)
              (by rw [List.all_cons, Bool.and_eq_true]
                  exact ⟨by decide, tabsChars_all_ws (ind + 1)⟩)
              hsne hs2 hstrip
            rw [ptext, plistNodes]
            simp only [List.cons_append, List.append_assoc, List.nil_append]
            rw [show ('\n' :: (tabsChars (ind + 1) ++ (s.data ++ '\n' ::
                (tabsChars (ind + 1) ++ (pcoreElem (ind + 1) c ++
                  (plistNodes (ind + 1) cs2 ++ '\n' :: (tabsChars ind ++
                    '<' :: '/' :: (t.data ++ '>' :: rest)))))))) =
                ('\n' :: tabsChars (ind + 1)) ++ s.data ++
                  ('\n' :: tabsChars (ind + 1)) ++ '<' :: (tl2 ++
                  (plistNodes (ind + 1) cs2 ++ '\n' :: (tabsChars ind ++
                    '<' :: '/' :: (t.data ++ '>' :: rest)))) from by
              rw [show ('<' :: (tl2 ++ (plistNodes (ind + 1) cs2 ++
                  '\n' :: (tabsChars ind ++ '<' :: '/' :: (t.data ++ '>' :: rest))))) =
                  pcoreElem (ind + 1) c ++ (plistNodes (ind + 1) cs2 ++
                    '\n' :: (tabsChars ind ++ '<' :: '/' :: (t.data ++ '>' :: rest)))
                  from by rw [htl2, List.cons_append]]
              simp [List.cons_append, List.append_assoc]]
            rw [htxt]
            have hmid := parseChildren_prender_mid c cs2 g (ind + 1) t
              ('\n' :: tabsChars ind) rest
              (by rw [wfList] at hwcs; exact hwcs) hvt
              (by rw [List.all_cons, Bool.and_eq_true]
                  exact ⟨by decide, tabsChars_all_ws ind⟩)
              (by intro h2; cases h2) (by omega)
            rw [show ('<' :: (tl2 ++ (plistNodes (ind + 1) cs2 ++
                '\n' :: (tabsChars ind ++ '<' :: '/' :: (t.data ++ '>' :: rest))))) =
                pcoreElem (ind + 1) c ++ (plistNodes (ind + 1) cs2 ++
                  ('\n' :: tabsChars ind) ++ '<' :: '/' :: (t.data ++ '>' :: rest))
                from by
              rw [htl2]
              simp [List.cons_append, List.append_assoc]]
            simp only [hmid]
            rw [canon]
            have hse : String.mk s.data ++ (Option.getD none "") = s :=
              stringAppendEmpty s
            simp only [hse, Option.getD_none, stringAppendEmpty]
termination_by 2 * sizeOf e
theorem parseChildren_prender_mid (c : Node) (cs2 : List Node) :
    ∀ fuel ind t wEnd rest, (wfNode c && wfList cs2) = true → validName t = true →
    wEnd.all isWsChar = true → wEnd ≠ [] → fls (c :: cs2) ≤ fuel →
    parseChildren fuel t (pcoreElem ind c ++ (plistNodes ind cs2 ++ wEnd ++
        '<' :: '/' :: (t.data ++ '>' :: rest))) =
      .ok (none, canonList (c :: cs2), rest) := by
  intro fuel ind t wEnd rest hw hvt hwe hwne hf
  rw [Bool.and_eq_true] at hw
  rw [fls] at hf
  cases fuel with
  | zero => omega
  | succ g =>
    have hfs : fsize c ≤ g := by
      have h9 := le_max_left (fsize c) (fls cs2)
      omega
    have hflc : fls cs2 + 1 ≤ g := by
      have h9 := le_max_right (fsize c) (fls cs2)
      omega
    cases c with
    | comment s2 =>
      have hcv : containsSeq ['-', '-', '>'] s2.data = false := by
        have h2 := hw.1
        rw [wfNode, validCommentStr] at h2
        simpa using h2
      rw [pcoreElem]
      simp only [List.cons_append, List.append_assoc, List.nil_append]
      have hcm := parseChildren_comment g t s2.data
        (plistNodes ind cs2 ++ wEnd ++ '<' :: '/' :: (t.data ++ '>' :: rest)) hcv
      simp only [List.cons_append, List.append_assoc, List.nil_append] at hcm
      rw [hcm]
      have hpcl := parseChildren_prender cs2 g ind t wEnd rest hw.2 hvt hwe hwne
        (by omega)
      simp only [List.cons_append, List.append_assoc] at hpcl
      rw [hpcl, canonList]
    | element t2 a2 x2 cs3 =>
      have hvt2 : validName t2 = true :=
        (wfNode_element_parts t2 a2 x2 cs3 hw.1).1
      obtain ⟨d, dr, htd2, hd, _⟩ := validName_cons t2 hvt2
      have hshape2 : ∃ X, pcoreElem ind (Node.element t2 a2 x2 cs3) =
          '<' :: (t2.data ++ X) := by
        by_cases h3 : cs3.isEmpty = true
        · refine ⟨renderAttrs a2 ++ '>' :: (renderTextOpt x2 ++
            '<' :: '/' :: (t2.data ++ ['>'])), ?_⟩
          rw [pcoreElem, if_pos h3]
          simp [List.append_assoc]
        · refine ⟨renderAttrs a2 ++ '>' :: (ptext (ind + 1) x2 ++
            plistNodes (ind + 1) cs3 ++
              '\n' :: (tabsChars ind ++ '<' :: '/' :: (t2.data ++ ['>']))), ?_⟩
          rw [pcoreElem, if_neg h3]
          simp [List.append_assoc]
      obtain ⟨X, hX⟩ := hshape2
      have hpe := parseElem_prender (Node.element t2 a2 x2 cs3) ind g
        (plistNodes ind cs2 ++ wEnd ++ '<' :: '/' :: (t.data ++ '>' :: rest))
        hw.1 (by rfl) hfs
      have hrew : pcoreElem ind (Node.element t2 a2 x2 cs3) ++
          (plistNodes ind cs2 ++ wEnd ++ '<' :: '/' :: (t.data ++ '>' :: rest)) =
          '<' :: d :: (dr ++ (X ++ (plistNodes ind cs2 ++ wEnd ++
            '<' :: '/' :: (t.data ++ '>' :: rest)))) := by
        rw [hX, htd2]
        simp [List.cons_append, List.append_assoc]
      rw [hrew]
      rw [hrew] at hpe
      have hchild := parseChildren_child g t d _ _
        (canon (Node.element t2 a2 x2 cs3)) hd hpe
      rw [hchild]
      have hpcl := parseChildren_prender cs2 g ind t wEnd rest hw.2 hvt hwe hwne hflc
      rw [hpcl, canonList, canon]
termination_by 2 * (sizeOf c + sizeOf cs2) + 1
theorem parseChildren_prender (cs : List Node) :
    ∀ fuel ind t wEnd rest, wfList cs = true → validName t = true →
    wEnd.all isWsChar = true → wEnd ≠ [] → fls cs + 1 ≤ fuel →
    parseChildren fuel t (plistNodes ind cs ++ wEnd ++
        '<' :: '/' :: (t.data ++ '>' :: rest)) =
      .ok (none, canonList cs, rest) := by
  intro fuel ind t wEnd rest hw hvt hwe hwne hf
  cases cs with
  | nil =>
    rw [fls] at hf
    cases fuel with
    | zero => omega
    | succ g =>
      rw [plistNodes, List.nil_append]
      rw [show wEnd ++ '<' :: '/' :: (t.data ++ '>' :: rest) =
          wEnd ++ '<' :: ('/' :: (t.data ++ '>' :: rest)) from rfl]
      rw [parseChildren_ws g t wEnd ('/' :: (t.data ++ '>' :: rest)) hwe hwne]
      cases g with
      | zero => omega
      | succ g2 =>
        rw [canonList]
        exact parseChildren_close g2 t rest hvt
  | cons c cs2 =>
    cases fuel with
    | zero => omega
    | succ g =>
      rw [plistNodes]
      obtain ⟨tl2, htl2⟩ := pcoreElem_shape ind c
      rw [wfList] at hw
      rw [show (('\n' :: (tabsChars ind ++ pcoreElem ind c)) ++ plistNodes ind cs2) ++
          wEnd ++ '<' :: '/' :: (t.data ++ '>' :: rest) =
          ('\n' :: tabsChars ind) ++ '<' :: (tl2 ++ (plistNodes ind cs2 ++ wEnd ++
            '<' :: '/' :: (t.data ++ '>' :: rest))) from by
        rw [show ('<' :: (tl2 ++ (plistNodes ind cs2 ++ wEnd ++
            '<' :: '/' :: (t.data ++ '>' :: rest)))) =
            pcoreElem ind c ++ (plistNodes ind cs2 ++ wEnd ++
              '<' :: '/' :: (t.data ++ '>' :: rest)) from by
          rw [htl2, List.cons_append]]
        simp [List.cons_append, List.append_assoc]]
      rw [parseChildren_ws g t ('\n' :: tabsChars ind) _
        (by rw [List.all_cons, Bool.and_eq_true]
            exact ⟨by decide, tabsChars_all_ws ind⟩)
        (by intro h2; cases h2)]
      rw [show ('<' :: (tl2 ++ (plistNodes ind cs2 ++ wEnd ++
          '<' :: '/' :: (t.data ++ '>' :: rest)))) =
          pcoreElem ind c ++ (plistNodes ind cs2 ++ wEnd ++
            '<' :: '/' :: (t.data ++ '>' :: rest)) from by
        rw [htl2]
        simp [List.cons_append, List.append_assoc]]
      exact parseChildren_prender_mid c cs2 g ind t wEnd rest hw hvt hwe hwne
        (by omega)
termination_by 2 * sizeOf cs
end

theorem pcoreElem_length_ge1 (ind : Nat) (e : Node) :
    1 ≤ (pcoreElem ind e).length := by
  obtain ⟨tl, htl⟩ := pcoreElem_shape ind e
  rw [htl]
  simp

mutual
theorem fsize_le_pcore (e : Node) : ∀ ind, fsize e ≤ (pcoreElem ind e).length := by
  cases e with
  | comment s =>
    intro ind
    rw [fsize, pcoreElem]
    simp
  | element t a x cs =>
    intro ind
    cases cs with
    | nil =>
      have hpc : pcoreElem ind (Node.element t a x []) =
          renderElem (Node.element t a x []) := by
        rw [pcoreElem, renderElem, if_pos (by rfl)]
        simp [renderList]
      rw [hpc]
      exact fsize_le_renderElem (Node.element t a x [])
    | cons c cs2 =>
      have ih := fls_le_plist (c :: cs2) (ind + 1)
      have ha := attrs_length_le a
      rw [fsize, pcoreElem, if_neg (by simp)]
      simp only [List.length_cons, List.length_append, List.length_nil]
      have hb : max (a.length + 1) (fls (c :: cs2) + 1) ≤
          max ((renderAttrs a).length + 1)
            ((plistNodes (ind + 1) (c :: cs2)).length + 4) :=
        max_le_max (by omega) (by omega)
      have hc2 : max ((renderAttrs a).length + 1)
          ((plistNodes (ind + 1) (c :: cs2)).length + 4) ≤
          (renderAttrs a).length + (plistNodes (ind + 1) (c :: cs2)).length + 4 := by
        rw [max_le_iff]
        omega
      omega
theorem fls_le_plist (cs : List Node) : ∀ ind,
    fls cs ≤ (plistNodes ind cs).length + 3 := by
  cases cs with
  | nil =>
    intro ind
    rw [fls, plistNodes]
    simp
  | cons c cs2 =>
    intro ind
    have ih1 := fsize_le_pcore c ind
    have ih2 := fls_le_plist cs2 ind
    have h2 := pcoreElem_length_ge1 ind c
    rw [fls, plistNodes]
    simp only [List.length_append, List.length_cons, tabsChars, List.length_replicate]
    have hm : max (fsize c) (fls cs2) ≤
        max ((pcoreElem ind c).length) ((plistNodes ind cs2).length + 3) :=
      max_le_max ih1 ih2
    have hb : max ((pcoreElem ind c).length) ((plistNodes ind cs2).length + 3) ≤
        (pcoreElem ind c).length + (plistNodes ind cs2).length + 2 := by
      rw [max_le_iff]
      omega
    omega
end

theorem parse_prettyPrint_canon (T : Node) (hw : wfNode T = true)
    (he : isElem T = true) : parse (prettyPrint T) = .ok (canon T) := by
  rw [parse, prettyPrint]
  show parseDoc (declChars ++ '\n' :: (pcoreElem 0 T ++ ['\n'])) = _
  obtain ⟨tl, htl⟩ := pcoreElem_shape 0 T
  have hsw : skipWs (declChars ++ '\n' :: (pcoreElem 0 T ++ ['\n'])) =
      declChars ++ '\n' :: (pcoreElem 0 T ++ ['\n']) := by
    rw [declChars]
    simp only [List.cons_append]
    exact skipWs_head '<' _ (by decide)
  have hsw2 : skipWs ('\n' :: (pcoreElem 0 T ++ ['\n'])) =
      pcoreElem 0 T ++ ['\n'] := by
    rw [skipWs, if_pos (by decide), htl]
    exact skipWs_head '<' _ (by decide)
  have hfuel : fsize T ≤
      ('<' :: '?' :: (declTailChars ++ '\n' :: (pcoreElem 0 T ++ ['\n']))).length + 1 := by
    have h1 := fsize_le_pcore T 0
    simp only [List.length_cons, List.length_append]
    omega
  have hpe := parseElem_prender T 0
    (('<' :: '?' :: (declTailChars ++ '\n' :: (pcoreElem 0 T ++ ['\n']))).length + 1)
    ['\n'] hw he hfuel
  rw [parseDoc, hsw, declChars]
  simp only [List.cons_append]
  rw [dropDecl_declTail]
  simp only [hsw2, hpe]
  rfl

theorem tabs_filter (n : Nat) :
    (tabsChars n).filter (fun c => !isWsChar c) = [] := by
  induction n with
  | zero => rfl
  | succ k ih =>
    rw [tabsChars, List.replicate_succ, List.filter_cons]
    simp only [show (!isWsChar '\t') = false from by decide, Bool.false_eq_true,
      if_false]
    exact ih

theorem ptext_filter_eq (ind : Nat) (x : Option String) :
    (ptext ind x).filter (fun c => !isWsChar c) =
      (renderTextOpt x).filter (fun c => !isWsChar c) := by
  cases x with
  | none => rfl
  | some s =>
    rw [ptext, renderTextOpt, List.filter_cons]
    simp only [show (!isWsChar '\n') = false from by decide, Bool.false_eq_true,
      if_false, List.filter_append, tabs_filter, List.nil_append]

mutual
theorem pcore_filter_eq (e : Node) : ∀ ind,
    (pcoreElem ind e).filter (fun c => !isWsChar c) =
      (renderElem e).filter (fun c => !isWsChar c) := by
  cases e with
  | comment s =>
    intro ind
    rfl
  | element t a x cs =>
    intro ind
    cases cs with
    | nil =>
      rw [show pcoreElem ind (Node.element t a x []) =
          renderElem (Node.element t a x []) from by
        rw [pcoreElem, renderElem, if_pos (by rfl)]
        simp [renderList]]
    | cons c cs2 =>
      have h1 := plist_filter_eq (c :: cs2) (ind + 1)
      rw [pcoreElem, if_neg (by simp), renderElem]
      simp only [List.filter_cons, List.filter_append, tabs_filter,
        ptext_filter_eq, h1, List.nil_append,
        show (!isWsChar '\n') = false from by decide,
        show (!isWsChar '<') = true from by decide, Bool.false_eq_true, if_false,
        if_true]
theorem plist_filter_eq (cs : List Node) : ∀ ind,
    (plistNodes ind cs).filter (fun c => !isWsChar c) =
      (renderList cs).filter (fun c => !isWsChar c) := by
  cases cs with
  | nil =>
    intro ind
    rfl
  | cons c cs2 =>
    intro ind
    have ih1 := pcore_filter_eq c ind
    have ih2 := plist_filter_eq cs2 ind
    rw [plistNodes, renderList]
    simp only [List.filter_cons, List.filter_append, tabs_filter, ih1, ih2,
      List.nil_append, show (!isWsChar '\n') = false from by decide,
      Bool.false_eq_true, if_false]
end

/-- C8: pretty printing carries the same semantic content as serialization:
the two strings agree character for character once whitespace is removed,
and for every well-formed tree parsing either string yields the same
tree. -/
theorem prettyPrint_whitespace_equiv (N : Node) :
    ((prettyPrint N).data.filter (fun c => !isWsChar c) =
      (serialize N).data.filter (fun c => !isWsChar c)) ∧
    (wfNode N = true → isElem N = true →
      parse (prettyPrint N) = parse (serialize N)) := by
  constructor
  · show (declChars ++ '\n' :: (pcoreElem 0 N ++ ['\n'])).filter
        (fun c => !isWsChar c) =
      (declChars ++ renderElem N).filter (fun c => !isWsChar c)
    simp only [List.filter_append, List.filter_cons,
      show (!isWsChar '\n') = false from by decide, Bool.false_eq_true, if_false,
      pcore_filter_eq N 0, List.filter_nil, List.append_nil, List.nil_append]
  · intro hw he
    rw [parse_prettyPrint_canon N hw he, parse_serialize_canon N hw he]

/-- Witness for C8 on a concrete tree with attributes, text, a comment and
a nested child. -/
theorem prettyPrint_whitespace_equiv_witness :
    ((prettyPrint (Node.element "a" [("k", "v")] (some "hi")
        [Node.comment "zz", Node.element "b" [] none []])).data.filter
          (fun c => !isWsChar c) =
      (serialize (Node.element "a" [("k", "v")] (some "hi")
        [Node.comment "zz", Node.element "b" [] none []])).data.filter
          (fun c => !isWsChar c)) ∧
    parse (prettyPrint (Node.element "a" [("k", "v")] (some "hi")
        [Node.comment "zz", Node.element "b" [] none []])) =
      parse (serialize (Node.element "a" [("k", "v")] (some "hi")
        [Node.comment "zz", Node.element "b" [] none []])) :=
  ⟨(prettyPrint_whitespace_equiv (Node.element "a" [("k", "v")] (some "hi")
      [Node.comment "zz", Node.element "b" [] none []])).1,
   (prettyPrint_whitespace_equiv (Node.element "a" [("k", "v")] (some "hi")
      [Node.comment "zz", Node.element "b" [] none []])).2 (by rfl) (by rfl)⟩
